import Mathlib

/-!
A verification development for the clone-gc library: cycle-collecting
reference-counted pointers (sources: src/gc_pointer.rs, src/gc_manager.rs,
src/trace.rs).

Modelling conventions.
* A cell is identified by a natural number.  The heap is a total function
  `Nat → Cell`; the list `univ` records the allocated ids (cells outside
  `univ` are blank and unreachable in well-formed states).
* A user value is abstracted to the list of managed handles that its
  `Trace::trace` implementation marks, in order and with multiplicity; the
  spec's user contract requires the traversal to be deterministic and
  side-effect free, so this list is all the collector ever observes of a
  value.  Dropping or replacing a value runs `GCP::drop` on each of these
  handles (the host language drops the value's fields).
* Rust `Vec`s used as stacks are modelled as Lean lists with the vector's
  push/pop end at the list head; `Vec::push` is `List.cons` and `Vec::pop`
  takes the head.  Iterating a `Vec` front to back therefore iterates the
  Lean list reversed.
* The `while let Some(p) = queue.pop()` loops of the collector are embedded
  with explicit fuel; the fuel passed by the callers is proved sufficient
  under the well-formedness hypotheses, so the embedded loops agree with the
  Rust loops on every well-formed state.
* The `u64` trace-id counter is modelled as an unbounded `Nat`; no claim
  concerns counter wrap-around.
-/

namespace CloneGC

/-- The traced shape of a user value: the handles its `trace` marks. -/
abbrev Val := List Nat

/-- `TraceData` (gc_pointer.rs, lines 122-126). -/
structure TraceData where
  id : Nat
  ref_count : Nat
  dead : Bool
deriving DecidableEq, Repr

/-- `GCData` (gc_pointer.rs, lines 111-120) together with the cell's value
(`GCPInner`, lines 13-16).  The `gc : GCManager` back-reference is omitted:
the model has a single manager, carried in `GCState`. -/
structure Cell where
  value : Option Val
  ref_count : Nat
  trace : TraceData
  is_dirty : Bool
  prev_dirty : Option Nat
  next_dirty : Option Nat
deriving DecidableEq, Repr

/-- The handles a cell's traversal reports: none when the value is empty
(`GCPInner::trace_content`, gc_pointer.rs lines 159-163). -/
def Cell.edges (c : Cell) : List Nat := c.value.getD []

/-- An unallocated cell. -/
def blankCell : Cell :=
  { value := none, ref_count := 0,
    trace := { id := 0, ref_count := 0, dead := false },
    is_dirty := false, prev_dirty := none, next_dirty := none }

/-- The manager state (`GCManagerInner`, gc_manager.rs lines 14-17) plus the
heap of cells it manages. -/
structure GCState where
  cells : Nat → Cell
  univ : List Nat
  dirty_root : Option Nat
  trace_id : Nat

/-- Pointwise heap update. -/
def updCell (cells : Nat → Cell) (p : Nat) (f : Cell → Cell) : Nat → Cell :=
  fun i => if i = p then f (cells i) else cells i

/-- `updCell` lifted to states. -/
def updateCell (s : GCState) (p : Nat) (f : Cell → Cell) : GCState :=
  { s with cells := updCell s.cells p f }

/-- `GCManagerInner::mark_dirty` (gc_manager.rs lines 47-58): splice `p` at
the head of the dirty list. -/
def mark_dirty (s : GCState) (p : Nat) : GCState :=
  match s.dirty_root with
  | some next =>
      let s1 := updateCell s next (fun c => { c with prev_dirty := some p })
      let s2 := updateCell s1 p
        (fun c => { c with next_dirty := some next, is_dirty := true })
      { s2 with dirty_root := some p }
  | none =>
      let s1 := updateCell s p (fun c => { c with is_dirty := true })
      { s1 with dirty_root := some p }

/-- `GCManagerInner::unmark_dirty` (gc_manager.rs lines 59-77): unlink `p`
from the dirty list, in source order (take `p`'s links, fix the previous
neighbor or the root, fix the next neighbor, clear `is_dirty`). -/
def unmark_dirty (s : GCState) (p : Nat) : GCState :=
  let maybe_prev := (s.cells p).prev_dirty
  let maybe_next := (s.cells p).next_dirty
  let s1 := updateCell s p (fun c => { c with prev_dirty := none, next_dirty := none })
  let s2 :=
    match maybe_prev with
    | some prev => updateCell s1 prev (fun c => { c with next_dirty := maybe_next })
    | none => { s1 with dirty_root := maybe_next }
  let s3 :=
    match maybe_next with
    | some next => updateCell s2 next (fun c => { c with prev_dirty := maybe_prev })
    | none => s2
  updateCell s3 p (fun c => { c with is_dirty := false })

/-- `impl Drop for GCP` (gc_pointer.rs lines 79-101).  Note that the source
checks `trace.dead` BEFORE decrementing: dropping a handle to a dead cell
changes nothing at all. -/
def dropHandle (s : GCState) (p : Nat) : GCState :=
  let meta := s.cells p
  if meta.trace.dead then s
  else
    let new_count := meta.ref_count - 1
    let s1 := updateCell s p (fun c => { c with ref_count := new_count })
    if new_count = 0 then
      if meta.is_dirty then unmark_dirty s1 p else s1
    else
      if meta.is_dirty then s1 else mark_dirty s1 p

/-- `impl Clone for GCP` (gc_pointer.rs lines 102-109): unconditional
increment, dead or not. -/
def cloneHandle (s : GCState) (p : Nat) : GCState :=
  updateCell s p (fun c => { c with ref_count := c.ref_count + 1 })

/-- `GCP::new` (gc_pointer.rs lines 21-37): fresh cell with `ref_count = 1`,
value present, clean metadata. -/
def newCell (s : GCState) (p : Nat) (v : Val) : GCState :=
  { updateCell s p (fun _ =>
      { value := some v, ref_count := 1,
        trace := { id := 0, ref_count := 0, dead := false },
        is_dirty := false, prev_dirty := none, next_dirty := none })
    with univ := p :: s.univ }

/-- `GCP::set` (gc_pointer.rs lines 44-47): overwrite the value
unconditionally; the host language then drops the old value, which runs
`GCP::drop` on each handle the old value held. -/
def setValue (s : GCState) (p : Nat) (v : Val) : GCState :=
  let old := (s.cells p).edges
  let s1 := updateCell s p (fun c => { c with value := some v })
  old.foldl dropHandle s1

/-- The two failures `GCP::get` can surface: the explicit
`AccessAfterCollect` panic for dead cells, and the `unwrap` panic on an
empty value. -/
inductive GCError where
  | AccessAfterCollect
  | ValueMissing
deriving DecidableEq, Repr

/-- `GCP::get` (gc_pointer.rs lines 49-57). -/
def getValue (s : GCState) (p : Nat) : Except GCError Val :=
  if (s.cells p).trace.dead then .error .AccessAfterCollect
  else
    match (s.cells p).value with
    | some v => .ok v
    | none => .error .ValueMissing

/-- `GCTracer` (trace.rs lines 7-11). -/
structure GCTracer where
  queue : List Nat
  perform_count : Bool
  trace_id : Nat
deriving DecidableEq, Repr

/-- `GCTracer::mark` (trace.rs lines 21-33). -/
def mark (st : (Nat → Cell) × GCTracer) (p : Nat) : (Nat → Cell) × GCTracer :=
  let cells := st.1
  let t := st.2
  if (cells p).trace.id = t.trace_id then
    if t.perform_count then
      (updCell cells p (fun c =>
        { c with trace := { c.trace with ref_count := c.trace.ref_count + 1 } }), t)
    else (cells, t)
  else
    (updCell cells p (fun c =>
      let rc := if t.perform_count then 1 else c.trace.ref_count
      { c with trace := { c.trace with id := t.trace_id, ref_count := rc } }),
     { t with queue := p :: t.queue })

/-- `GCPInner::trace_content` (gc_pointer.rs lines 159-163): mark every
handle the value reports, in order. -/
def trace_content (st : (Nat → Cell) × GCTracer) (p : Nat) : (Nat → Cell) × GCTracer :=
  ((st.1 p).edges).foldl mark st

/-- The phase-1 worklist loop of `count_cyclic_references`
(gc_manager.rs lines 96-104): pop, trace, flag dead, append to the
candidate vector. -/
def tallyLoop (fuel : Nat) (st : (Nat → Cell) × GCTracer) (pointers : List Nat) :
    (Nat → Cell) × GCTracer × List Nat :=
  match fuel with
  | 0 => (st.1, st.2, pointers)
  | fuel + 1 =>
    match st.2.queue with
    | [] => (st.1, st.2, pointers)
    | p :: rest =>
      let st1 := trace_content (st.1, { st.2 with queue := rest }) p
      let cells2 := updCell st1.1 p
        (fun c => { c with trace := { c.trace with dead := true } })
      tallyLoop fuel (cells2, st1.2) (p :: pointers)

/-- The phase-2 worklist loop of `find_unreachable_pointers`
(gc_manager.rs lines 124-128): pop, clear the dead flag, trace. -/
def markAliveLoop (fuel : Nat) (st : (Nat → Cell) × GCTracer) :
    (Nat → Cell) × GCTracer :=
  match fuel with
  | 0 => st
  | fuel + 1 =>
    match st.2.queue with
    | [] => st
    | p :: rest =>
      let cells1 := updCell st.1 p
        (fun c => { c with trace := { c.trace with dead := false } })
      markAliveLoop fuel (trace_content (cells1, { st.2 with queue := rest }) p)

/-- `DirtyGCPIter` (gc_pointer.rs lines 190-208): the ids reached from
`root` by following `next_dirty`.  The iterator reads a cell's `next_dirty`
before the drain body resets that cell, and the body only mutates the cell
just yielded, so pre-collecting the list is faithful.  `fuel` is an
embedding artifact; under the dirty-list representation invariant any
`fuel ≥ length of the list` is enough. -/
def dirtyListFrom (cells : Nat → Cell) : Nat → Option Nat → List Nat
  | _, none => []
  | 0, some _ => []
  | fuel + 1, some p => p :: dirtyListFrom cells fuel ((cells p).next_dirty)

/-- The drain body of `count_cyclic_references` (gc_manager.rs lines 84-93):
stamp the fresh trace id, zero the tally, unlink and undirty. -/
def drainReset (tid : Nat) (cells : Nat → Cell) (p : Nat) : Nat → Cell :=
  updCell cells p (fun c =>
    { c with trace := { c.trace with id := tid, ref_count := 0 },
             prev_dirty := none, next_dirty := none, is_dirty := false })

def drainResets (tid : Nat) : (Nat → Cell) → List Nat → Nat → Cell
  | cells, [] => cells
  | cells, p :: l => drainResets tid (drainReset tid cells p) l

/-- `GCManagerInner::count_cyclic_references` (gc_manager.rs lines 78-107).
Returns the candidate vector (top at the list head) and the updated state;
`dirty_root.take()` leaves the dirty list empty. -/
def count_cyclic_references (s : GCState) : List Nat × GCState :=
  let tid := s.trace_id + 1
  let roots := dirtyListFrom s.cells (s.univ.length + 1) s.dirty_root
  let cells0 := drainResets tid s.cells roots
  let queue := roots.reverse
  let out := tallyLoop (2 * s.univ.length + queue.length + 1)
      (cells0, { queue := queue, perform_count := true, trace_id := tid }) []
  (out.2.2, { s with cells := out.1, dirty_root := none, trace_id := tid })

/-- `GCManagerInner::find_unreachable_pointers` (gc_manager.rs lines
108-140): seed phase 2 with the candidates whose tally cannot explain their
strong count, flood liveness, then keep the candidates still flagged dead. -/
def find_unreachable_pointers (s : GCState) (pointers : List Nat) :
    List Nat × GCState :=
  let tid := s.trace_id + 1
  let reachable := pointers.filter
    (fun p => (s.cells p).trace.ref_count < (s.cells p).ref_count)
  let out := markAliveLoop (2 * s.univ.length + reachable.length + 1)
      (s.cells, { queue := reachable, perform_count := false, trace_id := tid })
  let dead := pointers.filter (fun p => (out.1 p).trace.dead)
  (dead, { s with cells := out.1, trace_id := tid })

/-- `GCPInner::drop_value` (gc_pointer.rs lines 156-158): clear the value;
the host language drops the old value, running `GCP::drop` on each handle it
held (the user destructor's handle drops). -/
def drop_value (s : GCState) (p : Nat) : GCState :=
  let old := (s.cells p).edges
  let s1 := updateCell s p (fun c => { c with value := none })
  old.foldl dropHandle s1

/-- `GCManager::gc` (gc_manager.rs lines 28-37): phase 1, phase 2, release
the manager borrow, then clear the dead values front to back. -/
def gc (s : GCState) : GCState :=
  let out1 := count_cyclic_references s
  let out2 := find_unreachable_pointers out1.2 out1.1
  out2.1.reverse.foldl drop_value out2.2

/-- The dead set a `gc` call selects (step 4 of the spec's §4.3), read off
the same decomposition as `gc`. -/
def deadSet (s : GCState) : List Nat :=
  (find_unreachable_pointers (count_cyclic_references s).2
    (count_cyclic_references s).1).1

/-- Reachability through the values' traced edges. -/
def Reaches (cells : Nat → Cell) (a b : Nat) : Prop :=
  Relation.ReflTransGen (fun x y => y ∈ (cells x).edges) a b

/-! ## Basic preservation lemmas for the pointer operations -/

theorem updCell_apply (cells : Nat → Cell) (p : Nat) (f : Cell → Cell) (q : Nat) :
    updCell cells p f q = if q = p then f (cells q) else cells q := rfl

theorem mark_dirty_cells_eq (s : GCState) (p q : Nat) :
    ((mark_dirty s p).cells q).value = (s.cells q).value ∧
    ((mark_dirty s p).cells q).ref_count = (s.cells q).ref_count ∧
    ((mark_dirty s p).cells q).trace = (s.cells q).trace := by
  unfold mark_dirty
  cases s.dirty_root <;>
    simp [updateCell, updCell_apply] <;> split_ifs <;> simp

theorem mark_dirty_univ (s : GCState) (p : Nat) :
    (mark_dirty s p).univ = s.univ ∧ (mark_dirty s p).trace_id = s.trace_id := by
  unfold mark_dirty
  cases s.dirty_root <;> exact ⟨rfl, rfl⟩

theorem unmark_dirty_cells_eq (s : GCState) (p q : Nat) :
    ((unmark_dirty s p).cells q).value = (s.cells q).value ∧
    ((unmark_dirty s p).cells q).ref_count = (s.cells q).ref_count ∧
    ((unmark_dirty s p).cells q).trace = (s.cells q).trace := by
  unfold unmark_dirty
  cases (s.cells p).prev_dirty <;> cases (s.cells p).next_dirty <;>
    simp [updateCell, updCell_apply] <;> split_ifs <;> simp

theorem unmark_dirty_univ (s : GCState) (p : Nat) :
    (unmark_dirty s p).univ = s.univ ∧ (unmark_dirty s p).trace_id = s.trace_id := by
  unfold unmark_dirty
  cases (s.cells p).prev_dirty <;> cases (s.cells p).next_dirty <;> exact ⟨rfl, rfl⟩

/-- Dropping a handle to a dead cell is a complete no-op (the early return at
gc_pointer.rs line 82-84 fires before the decrement). -/
theorem dropHandle_dead_eq (s : GCState) (p : Nat)
    (h : (s.cells p).trace.dead = true) : dropHandle s p = s := by
  unfold dropHandle
  simp [h]

theorem updateCell_cells (s : GCState) (p : Nat) (f : Cell → Cell) (q : Nat) :
    (updateCell s p f).cells q = if q = p then f (s.cells q) else s.cells q := rfl

theorem dropHandle_cells_eq (s : GCState) (p q : Nat) :
    ((dropHandle s p).cells q).value = (s.cells q).value ∧
    ((dropHandle s p).cells q).trace = (s.cells q).trace := by
  unfold dropHandle
  dsimp only
  split_ifs with h1 h2 h3 h4
  · exact ⟨rfl, rfl⟩
  · constructor
    · rw [(unmark_dirty_cells_eq _ p q).1, updateCell_cells]
      split_ifs <;> simp
    · rw [(unmark_dirty_cells_eq _ p q).2.2, updateCell_cells]
      split_ifs <;> simp
  · constructor
    · rw [updateCell_cells]; split_ifs <;> simp
    · rw [updateCell_cells]; split_ifs <;> simp
  · constructor
    · rw [updateCell_cells]; split_ifs <;> simp
    · rw [updateCell_cells]; split_ifs <;> simp
  · constructor
    · rw [(mark_dirty_cells_eq _ p q).1, updateCell_cells]
      split_ifs <;> simp
    · rw [(mark_dirty_cells_eq _ p q).2.2, updateCell_cells]
      split_ifs <;> simp

theorem dropHandle_rc_other (s : GCState) (p q : Nat) (h : q ≠ p) :
    ((dropHandle s p).cells q).ref_count = (s.cells q).ref_count := by
  unfold dropHandle
  dsimp only
  split_ifs with h1 h2 h3 h4
  · rfl
  · rw [(unmark_dirty_cells_eq _ p q).2.1, updateCell_cells]
    simp [h]
  · rw [updateCell_cells]; simp [h]
  · rw [updateCell_cells]; simp [h]
  · rw [(mark_dirty_cells_eq _ p q).2.1, updateCell_cells]
    simp [h]

theorem dropHandle_univ (s : GCState) (p : Nat) :
    (dropHandle s p).univ = s.univ ∧ (dropHandle s p).trace_id = s.trace_id := by
  unfold dropHandle
  dsimp only
  split_ifs
  · exact ⟨rfl, rfl⟩
  · exact (unmark_dirty_univ _ p)
  · exact ⟨rfl, rfl⟩
  · exact ⟨rfl, rfl⟩
  · exact (mark_dirty_univ _ p)

theorem cloneHandle_cells_eq (s : GCState) (p q : Nat) :
    ((cloneHandle s p).cells q).value = (s.cells q).value ∧
    ((cloneHandle s p).cells q).trace = (s.cells q).trace ∧
    ((cloneHandle s p).cells q).is_dirty = (s.cells q).is_dirty := by
  unfold cloneHandle
  simp [updateCell, updCell_apply]
  split_ifs <;> simp


theorem cloneHandle_rc (s : GCState) (p : Nat) :
    ((cloneHandle s p).cells p).ref_count = (s.cells p).ref_count + 1 := by
  unfold cloneHandle
  rw [updateCell_cells]
  simp

theorem cloneHandle_rc_other (s : GCState) (p q : Nat) (h : q ≠ p) :
    ((cloneHandle s p).cells q).ref_count = (s.cells q).ref_count := by
  unfold cloneHandle
  rw [updateCell_cells]
  simp [h]

/-! ## Example states used by counterexamples and witnesses -/

/-- A heap whose cell 0 is dead with a cleared value and `ref_count = 5`. -/
def sDead : GCState :=
  { cells := fun i =>
      if i = 0 then
        { value := none, ref_count := 5,
          trace := { id := 0, ref_count := 0, dead := true },
          is_dirty := false, prev_dirty := none, next_dirty := none }
      else blankCell,
    univ := [0], dirty_root := none, trace_id := 0 }

/-- A heap whose cell 0 is live with value present and `ref_count = 2`. -/
def sLive : GCState :=
  { cells := fun i =>
      if i = 0 then
        { value := some [], ref_count := 2,
          trace := { id := 0, ref_count := 0, dead := false },
          is_dirty := false, prev_dirty := none, next_dirty := none }
      else blankCell,
    univ := [0], dirty_root := none, trace_id := 0 }

/-- A fresh tally-mode tracer over a blank heap. -/
def stEx : (Nat → Cell) × GCTracer :=
  (fun _ => blankCell, { queue := [], perform_count := true, trace_id := 1 })

/-- A fresh mark-alive-mode tracer over a blank heap. -/
def stExAlive : (Nat → Cell) × GCTracer :=
  (fun _ => blankCell, { queue := [], perform_count := false, trace_id := 1 })

/-! ## C4: handle drop on a dead cell -/

/-- C4 counterexample: the claim says a drop of a handle to a dead cell still
lowers `ref_count` by one.  On the dead cell 0 of `sDead` (with
`ref_count = 5`) the drop leaves `ref_count` at 5, not 4: the source checks
`trace.dead` before decrementing. -/
theorem c4_counterexample :
    ((dropHandle sDead 0).cells 0).ref_count ≠ (sDead.cells 0).ref_count - 1 := by
  decide

/-- C4 (amended): every handle drop on a cell whose `trace.dead` is false
decrements `ref_count` by exactly one and then does the dirty-list
maintenance; when `trace.dead` is true the drop returns BEFORE the
decrement, so it is a complete no-op (`ref_count` is not lowered). -/
theorem c4_drop_dead_amended (s : GCState) (p : Nat) :
    ((s.cells p).trace.dead = true → dropHandle s p = s) ∧
    ((s.cells p).trace.dead = false →
      ((dropHandle s p).cells p).ref_count = (s.cells p).ref_count - 1) := by
  constructor
  · exact fun h => dropHandle_dead_eq s p h
  · intro h
    unfold dropHandle
    dsimp only
    rw [if_neg (by simp [h])]
    split_ifs with h2 h3 h4
    · rw [(unmark_dirty_cells_eq _ p p).2.1, updateCell_cells]
      simp
    · rw [updateCell_cells]; simp
    · rw [updateCell_cells]; simp
    · rw [(mark_dirty_cells_eq _ p p).2.1, updateCell_cells]
      simp

/-- C4 amended witness: on the live cell of `sLive`, one drop takes
`ref_count` from 2 to 1. -/
theorem c4_drop_dead_amended_witness :
    ((dropHandle sLive 0).cells 0).ref_count = (sLive.cells 0).ref_count - 1 :=
  (c4_drop_dead_amended sLive 0).2 (by decide)

/-! ## C5: tracer idempotence -/

/-- C5 counterexample: in tally mode (`perform_count = true`, the state
`stEx`), marking cell 0 twice does not leave the metadata of cell 0 as
marking it once does — the second mark increments `trace.ref_count`. -/
theorem c5_counterexample :
    ((mark (mark stEx 0) 0).1 0) ≠ ((mark stEx 0).1 0) := by
  decide

/-- C5 (amended): the tracer is idempotent per trace id only in mark-alive
mode: with `perform_count = false` a second `mark` of the same handle leaves
the tracer and every cell exactly as the first.  In tally mode a second
`mark` of the same handle additionally increments that cell's
`trace.ref_count` by one: each `mark` call is tallied as one more edge. -/
theorem mark_tracer_fields (st : (Nat → Cell) × GCTracer) (p : Nat) :
    (mark st p).2.perform_count = st.2.perform_count ∧
    (mark st p).2.trace_id = st.2.trace_id := by
  unfold mark
  dsimp only
  split_ifs <;> exact ⟨rfl, rfl⟩

theorem mark_visited_self (st : (Nat → Cell) × GCTracer) (p : Nat) :
    ((mark st p).1 p).trace.id = (mark st p).2.trace_id := by
  unfold mark
  dsimp only
  split_ifs with h1 h2 <;> simp [updCell_apply, h1]

theorem mark_already_visited (st : (Nat → Cell) × GCTracer) (p : Nat)
    (h : (st.1 p).trace.id = st.2.trace_id) :
    (st.2.perform_count = false → mark st p = st) ∧
    (st.2.perform_count = true →
      ((mark st p).1 p).trace.ref_count = (st.1 p).trace.ref_count + 1) := by
  constructor
  · intro hpc
    unfold mark
    dsimp only
    rw [if_pos h, if_neg (by simp [hpc])]
  · intro hpc
    unfold mark
    dsimp only
    rw [if_pos h, if_pos hpc]
    simp [updCell_apply]

theorem c5_mark_idempotent_amended (st : (Nat → Cell) × GCTracer) (p : Nat) :
    (st.2.perform_count = false → mark (mark st p) p = mark st p) ∧
    (st.2.perform_count = true →
      ((mark (mark st p) p).1 p).trace.ref_count
        = ((mark st p).1 p).trace.ref_count + 1) := by
  have h := mark_already_visited (mark st p) p (mark_visited_self st p)
  constructor
  · intro hpc
    exact h.1 (by rw [(mark_tracer_fields st p).1]; exact hpc)
  · intro hpc
    exact h.2 (by rw [(mark_tracer_fields st p).1]; exact hpc)

/-- C5 amended witness: at the concrete mark-alive state `stExAlive`, the
second mark of cell 0 is the identity; at the tally state `stEx`, the second
mark bumps the tally from 1 to 2. -/
theorem c5_mark_idempotent_amended_witness :
    mark (mark stExAlive 0) 0 = mark stExAlive 0 ∧
    ((mark (mark stEx 0) 0).1 0).trace.ref_count
      = ((mark stEx 0).1 0).trace.ref_count + 1 :=
  ⟨(c5_mark_idempotent_amended stExAlive 0).1 rfl,
   (c5_mark_idempotent_amended stEx 0).2 rfl⟩

/-! ## C6: get fails with AccessAfterCollect exactly on dead cells -/

/-- C6: `get()` fails with `AccessAfterCollect` exactly when the cell's
`trace.dead` flag is set; otherwise — under the value-presence invariant for
live cells — it returns the current value and cannot fail in any other way.
(The hypothesis is the spec's §3 invariant: only collected cells, which
keep `trace.dead` set, have an empty value.) -/
theorem c6_get_fails_iff_dead (s : GCState) (p : Nat)
    (hinv : (s.cells p).trace.dead = false → ((s.cells p).value).isSome) :
    (getValue s p = Except.error GCError.AccessAfterCollect
        ↔ (s.cells p).trace.dead = true) ∧
    ((s.cells p).trace.dead = false →
      getValue s p = Except.ok (((s.cells p).value).getD [])) := by
  rcases hd : (s.cells p).trace.dead with _ | _
  · rcases hv : (s.cells p).value with _ | v
    · exact absurd (hinv hd) (by simp [hv])
    · unfold getValue
      simp [hd, hv]
  · unfold getValue
    simp [hd]

/-- C6 witness: on the dead cell of `sDead`, `get` raises
`AccessAfterCollect`; on the live cell of `sLive`, `get` returns the value. -/
theorem c6_get_fails_iff_dead_witness :
    getValue sDead 0 = Except.error GCError.AccessAfterCollect ∧
    getValue sLive 0 = Except.ok [] :=
  ⟨(c6_get_fails_iff_dead sDead 0 (by decide)).1.mpr (by decide),
   (c6_get_fails_iff_dead sLive 0 (by decide)).2 (by decide)⟩

/-! ## C10: a dead cell's ref_count never decreases -/

/-- A handle-count operation: `Clone::clone` or `Drop::drop` on some cell. -/
inductive HandleOp where
  | cloneOp (p : Nat)
  | dropOp (p : Nat)

def applyHandleOp (s : GCState) : HandleOp → GCState
  | .cloneOp p => cloneHandle s p
  | .dropOp p => dropHandle s p

def applyHandleOps (s : GCState) (ops : List HandleOp) : GCState :=
  ops.foldl applyHandleOp s

theorem applyHandleOp_dead (s : GCState) (op : HandleOp) (q : Nat) :
    ((applyHandleOp s op).cells q).trace.dead = (s.cells q).trace.dead := by
  cases op with
  | cloneOp p => exact congrArg TraceData.dead (cloneHandle_cells_eq s p q).2.1
  | dropOp p => exact congrArg TraceData.dead (dropHandle_cells_eq s p q).2

theorem applyHandleOp_dead_rc_mono (s : GCState) (op : HandleOp) (p : Nat)
    (hdead : (s.cells p).trace.dead = true) :
    (s.cells p).ref_count ≤ ((applyHandleOp s op).cells p).ref_count := by
  cases op with
  | cloneOp q =>
    rcases eq_or_ne p q with rfl | hne
    · show _ ≤ ((cloneHandle s p).cells p).ref_count
      rw [cloneHandle_rc]
      omega
    · show _ ≤ ((cloneHandle s q).cells p).ref_count
      rw [cloneHandle_rc_other s q p hne]
  | dropOp q =>
    rcases eq_or_ne p q with rfl | hne
    · show _ ≤ ((dropHandle s p).cells p).ref_count
      rw [dropHandle_dead_eq s p hdead]
    · show _ ≤ ((dropHandle s q).cells p).ref_count
      rw [dropHandle_rc_other s q p hne]

/-- C10: on a cell whose `trace.dead` flag is set, a handle clone still
increments `ref_count` by one, a handle drop is a complete no-op, and under
any further sequence of handle clones and drops (on any cells) the dead
cell's `ref_count` never decreases. -/
theorem c10_dead_refcount_monotone (s : GCState) (p : Nat)
    (hdead : (s.cells p).trace.dead = true) :
    ((cloneHandle s p).cells p).ref_count = (s.cells p).ref_count + 1 ∧
    dropHandle s p = s ∧
    ∀ ops : List HandleOp,
      (s.cells p).ref_count ≤ ((applyHandleOps s ops).cells p).ref_count := by
  refine ⟨cloneHandle_rc s p, dropHandle_dead_eq s p hdead, ?_⟩
  intro ops
  induction ops generalizing s with
  | nil => exact le_refl _
  | cons op rest ih =>
    calc (s.cells p).ref_count
        ≤ ((applyHandleOp s op).cells p).ref_count :=
          applyHandleOp_dead_rc_mono s op p hdead
      _ ≤ ((applyHandleOps (applyHandleOp s op) rest).cells p).ref_count := by
          apply ih
          rw [applyHandleOp_dead s op p]
          exact hdead

/-- C10 witness: on the dead cell of `sDead` (`ref_count = 5`), clone gives
6, drop is the identity, and the sequence drop-drop-clone leaves the count
at least 5. -/
theorem c10_dead_refcount_monotone_witness :
    ((cloneHandle sDead 0).cells 0).ref_count = (sDead.cells 0).ref_count + 1 ∧
    dropHandle sDead 0 = sDead ∧
    (sDead.cells 0).ref_count
      ≤ ((applyHandleOps sDead
            [HandleOp.dropOp 0, HandleOp.dropOp 0, HandleOp.cloneOp 0]).cells
          0).ref_count :=
  ⟨(c10_dead_refcount_monotone sDead 0 (by decide)).1,
   (c10_dead_refcount_monotone sDead 0 (by decide)).2.1,
   (c10_dead_refcount_monotone sDead 0 (by decide)).2.2 _⟩


/-! ## Field preservation through the collector loops -/

/-- The two trace scans only touch `trace` metadata: every other cell field
is preserved. -/
def NonTraceEq (cs cs' : Nat → Cell) : Prop :=
  ∀ q, (cs' q).value = (cs q).value ∧
       (cs' q).ref_count = (cs q).ref_count ∧
       (cs' q).is_dirty = (cs q).is_dirty ∧
       (cs' q).prev_dirty = (cs q).prev_dirty ∧
       (cs' q).next_dirty = (cs q).next_dirty

theorem nonTraceEq_rfl (cs : Nat → Cell) : NonTraceEq cs cs :=
  fun _ => ⟨rfl, rfl, rfl, rfl, rfl⟩

theorem nonTraceEq_trans {a b c : Nat → Cell}
    (h1 : NonTraceEq a b) (h2 : NonTraceEq b c) : NonTraceEq a c := by
  intro q
  obtain ⟨e1, e2, e3, e4, e5⟩ := h1 q
  obtain ⟨f1, f2, f3, f4, f5⟩ := h2 q
  exact ⟨f1.trans e1, f2.trans e2, f3.trans e3, f4.trans e4, f5.trans e5⟩

theorem nonTraceEq_edges {a b : Nat → Cell} (h : NonTraceEq a b) (q : Nat) :
    (b q).edges = (a q).edges := by
  unfold Cell.edges
  rw [(h q).1]

theorem mark_nonTraceEq (st : (Nat → Cell) × GCTracer) (p : Nat) :
    NonTraceEq st.1 (mark st p).1 := by
  intro q
  unfold mark
  dsimp only
  split_ifs <;> simp [updCell_apply] <;> split_ifs <;> simp

theorem mark_dead_eq (st : (Nat → Cell) × GCTracer) (p q : Nat) :
    ((mark st p).1 q).trace.dead = (st.1 q).trace.dead := by
  unfold mark
  dsimp only
  split_ifs <;> simp [updCell_apply] <;> split_ifs <;> simp

theorem foldl_mark_nonTraceEq (es : List Nat) :
    ∀ st : (Nat → Cell) × GCTracer, NonTraceEq st.1 (es.foldl mark st).1 := by
  induction es with
  | nil => exact fun st => nonTraceEq_rfl st.1
  | cons e es ih =>
    intro st
    exact nonTraceEq_trans (mark_nonTraceEq st e) (ih (mark st e))

theorem foldl_mark_dead_eq (es : List Nat) :
    ∀ (st : (Nat → Cell) × GCTracer) (q : Nat),
      ((es.foldl mark st).1 q).trace.dead = (st.1 q).trace.dead := by
  induction es with
  | nil => exact fun _ _ => rfl
  | cons e es ih =>
    intro st q
    rw [List.foldl_cons, ih (mark st e) q, mark_dead_eq st e q]

theorem trace_content_nonTraceEq (st : (Nat → Cell) × GCTracer) (p : Nat) :
    NonTraceEq st.1 (trace_content st p).1 :=
  foldl_mark_nonTraceEq _ st

theorem tallyLoop_nonTraceEq (fuel : Nat) :
    ∀ (st : (Nat → Cell) × GCTracer) (acc : List Nat),
      NonTraceEq st.1 (tallyLoop fuel st acc).1 := by
  induction fuel with
  | zero => exact fun st _ => nonTraceEq_rfl st.1
  | succ fuel ih =>
    intro st acc
    show NonTraceEq st.1 (tallyLoop (fuel + 1) st acc).1
    unfold tallyLoop
    rcases hq : st.2.queue with _ | ⟨p, rest⟩
    · exact nonTraceEq_rfl st.1
    · dsimp only
      refine nonTraceEq_trans (trace_content_nonTraceEq (st.1, { st.2 with queue := rest }) p) ?_
      refine nonTraceEq_trans ?_ (ih _ _)
      intro q
      simp [updCell_apply]
      split_ifs <;> simp

theorem markAliveLoop_nonTraceEq (fuel : Nat) :
    ∀ st : (Nat → Cell) × GCTracer,
      NonTraceEq st.1 (markAliveLoop fuel st).1 := by
  induction fuel with
  | zero => exact fun st => nonTraceEq_rfl st.1
  | succ fuel ih =>
    intro st
    show NonTraceEq st.1 (markAliveLoop (fuel + 1) st).1
    unfold markAliveLoop
    rcases hq : st.2.queue with _ | ⟨p, rest⟩
    · exact nonTraceEq_rfl st.1
    · dsimp only
      refine nonTraceEq_trans ?_ (ih _)
      refine nonTraceEq_trans ?_
        (trace_content_nonTraceEq (_, { st.2 with queue := rest }) p)
      intro q
      simp [updCell_apply]
      split_ifs <;> simp

theorem drainReset_fields (tid : Nat) (cells : Nat → Cell) (p q : Nat) :
    (drainReset tid cells p q).value = (cells q).value ∧
    (drainReset tid cells p q).ref_count = (cells q).ref_count ∧
    (drainReset tid cells p q).trace.dead = (cells q).trace.dead := by
  unfold drainReset
  simp [updCell_apply]
  split_ifs <;> simp

theorem drainResets_fields (tid : Nat) (l : List Nat) :
    ∀ (cells : Nat → Cell) (q : Nat),
      (drainResets tid cells l q).value = (cells q).value ∧
      (drainResets tid cells l q).ref_count = (cells q).ref_count ∧
      (drainResets tid cells l q).trace.dead = (cells q).trace.dead := by
  induction l with
  | nil => exact fun _ _ => ⟨rfl, rfl, rfl⟩
  | cons c l ih =>
    intro cells q
    obtain ⟨e1, e2, e3⟩ := ih (drainReset tid cells c) q
    obtain ⟨f1, f2, f3⟩ := drainReset_fields tid cells c q
    exact ⟨e1.trans f1, e2.trans f2, e3.trans f3⟩

theorem count_cyclic_value_rc (s : GCState) (q : Nat) :
    (((count_cyclic_references s).2).cells q).value = (s.cells q).value ∧
    (((count_cyclic_references s).2).cells q).ref_count = (s.cells q).ref_count := by
  unfold count_cyclic_references
  dsimp only
  obtain ⟨h1, h2, _⟩ := tallyLoop_nonTraceEq (2 * s.univ.length + _ + 1)
    (drainResets (s.trace_id + 1) s.cells _,
     { queue := _, perform_count := true, trace_id := s.trace_id + 1 }) [] q
  rw [h1, h2]
  obtain ⟨e1, e2, _⟩ := drainResets_fields (s.trace_id + 1) _ s.cells q
  exact ⟨e1, e2⟩

theorem find_unreachable_nonTraceEq (s : GCState) (pointers : List Nat) :
    NonTraceEq s.cells ((find_unreachable_pointers s pointers).2).cells := by
  unfold find_unreachable_pointers
  dsimp only
  exact markAliveLoop_nonTraceEq _ _

theorem foldl_dropHandle_value (l : List Nat) :
    ∀ (s : GCState) (q : Nat),
      ((l.foldl dropHandle s).cells q).value = (s.cells q).value := by
  induction l with
  | nil => exact fun _ _ => rfl
  | cons e l ih =>
    intro s q
    rw [List.foldl_cons, ih (dropHandle s e) q, (dropHandle_cells_eq s e q).1]

theorem drop_value_none_mono (s : GCState) (p q : Nat)
    (h : (s.cells q).value = none) : ((drop_value s p).cells q).value = none := by
  unfold drop_value
  dsimp only
  rw [foldl_dropHandle_value, updateCell_cells]
  split_ifs <;> simp [h]

theorem drop_value_self_none (s : GCState) (p : Nat) :
    ((drop_value s p).cells p).value = none := by
  unfold drop_value
  dsimp only
  rw [foldl_dropHandle_value, updateCell_cells]
  simp

theorem drop_value_other (s : GCState) (p q : Nat) (h : q ≠ p) :
    ((drop_value s p).cells q).value = (s.cells q).value := by
  unfold drop_value
  dsimp only
  rw [foldl_dropHandle_value, updateCell_cells]
  simp [h]

theorem foldl_drop_value_none_mono (l : List Nat) :
    ∀ (s : GCState) (q : Nat), (s.cells q).value = none →
      ((l.foldl drop_value s).cells q).value = none := by
  induction l with
  | nil => exact fun _ _ h => h
  | cons e l ih =>
    intro s q h
    exact ih (drop_value s e) q (drop_value_none_mono s e q h)

theorem foldl_drop_value_not_mem (l : List Nat) :
    ∀ (s : GCState) (q : Nat), q ∉ l →
      ((l.foldl drop_value s).cells q).value = (s.cells q).value := by
  induction l with
  | nil => exact fun _ _ _ => rfl
  | cons e l ih =>
    intro s q h
    rw [List.foldl_cons, ih (drop_value s e) q (fun hm => h (List.mem_cons_of_mem e hm)),
      drop_value_other s e q (fun he => h (he ▸ List.mem_cons_self e l))]

theorem gc_value_none_mono (s : GCState) (q : Nat)
    (h : (s.cells q).value = none) : ((gc s).cells q).value = none := by
  unfold gc
  dsimp only
  apply foldl_drop_value_none_mono
  rw [(find_unreachable_nonTraceEq (count_cyclic_references s).2 _ q).1,
    (count_cyclic_value_rc s q).1]
  exact h

/-! ## C3: cleared values -/

/-- C3 counterexample: the claim says a cleared value stays empty even across
`set(v')`.  On the cleared cell 0 of `sDead`, `set` makes the value present
again: the source overwrites unconditionally. -/
theorem c3_counterexample : ((setValue sDead 0 []).cells 0).value ≠ none := by
  decide

/-- C3 (amended): once a cell's value has been cleared it stays empty under
every operation except `set(v')`: handle clone, handle drop on any cell,
`set` on any other cell, and whole `gc()` calls never make it present again;
but `set(v')` on the cell itself overwrites unconditionally and does make
the value present. -/
theorem c3_cleared_stays_empty_amended (s : GCState) (c : Nat)
    (h : (s.cells c).value = none) :
    (∀ p, ((cloneHandle s p).cells c).value = none) ∧
    (∀ p, ((dropHandle s p).cells c).value = none) ∧
    (∀ p v, p ≠ c → ((setValue s p v).cells c).value = none) ∧
    ((gc s).cells c).value = none ∧
    ∀ v, ((setValue s c v).cells c).value = some v := by
  refine ⟨?_, ?_, ?_, gc_value_none_mono s c h, ?_⟩
  · intro p
    rw [(cloneHandle_cells_eq s p c).1]
    exact h
  · intro p
    rw [(dropHandle_cells_eq s p c).1]
    exact h
  · intro p v hpc
    unfold setValue
    dsimp only
    rw [foldl_dropHandle_value, updateCell_cells,
      if_neg (fun hh : c = p => hpc hh.symm)]
    exact h
  · intro v
    unfold setValue
    dsimp only
    rw [foldl_dropHandle_value, updateCell_cells]
    simp

/-- C3 amended witness at the cleared cell of `sDead`. -/
theorem c3_cleared_stays_empty_amended_witness :
    ((cloneHandle sDead 1).cells 0).value = none ∧
    ((dropHandle sDead 0).cells 0).value = none ∧
    ((gc sDead).cells 0).value = none ∧
    ((setValue sDead 0 [3]).cells 0).value = some [3] := by
  obtain ⟨h1, h2, _, h4, h5⟩ := c3_cleared_stays_empty_amended sDead 0 (by decide)
  exact ⟨h1 1, h2 0, h4, h5 [3]⟩


/-! ## C9: a gc with an empty dirty set clears nothing -/

theorem tallyLoop_nil (fuel : Nat) (cs : Nat → Cell) (pc : Bool) (tid : Nat)
    (acc : List Nat) :
    tallyLoop fuel (cs, { queue := [], perform_count := pc, trace_id := tid }) acc
      = (cs, { queue := [], perform_count := pc, trace_id := tid }, acc) := by
  cases fuel <;> rfl

theorem markAliveLoop_nil (fuel : Nat) (cs : Nat → Cell) (pc : Bool) (tid : Nat) :
    markAliveLoop fuel (cs, { queue := [], perform_count := pc, trace_id := tid })
      = (cs, { queue := [], perform_count := pc, trace_id := tid }) := by
  cases fuel <;> rfl

theorem count_cyclic_references_empty (s : GCState) (h : s.dirty_root = none) :
    count_cyclic_references s
      = ([], { s with cells := s.cells, dirty_root := none, trace_id := s.trace_id + 1 }) := by
  unfold count_cyclic_references
  dsimp only
  rw [h]
  rw [show dirtyListFrom s.cells (s.univ.length + 1) none = [] from rfl]
  rw [show drainResets (s.trace_id + 1) s.cells [] = s.cells from rfl]
  rw [List.reverse_nil, tallyLoop_nil]

/-- C9: if no handle has been dropped since the previous `gc()` — so the
dirty list is empty — another `gc()` selects an empty dead set and clears no
cell's value; the heap of cells is left entirely unchanged, and the dirty
list stays empty. -/
theorem c9_gc_noop_when_clean (s : GCState) (h : s.dirty_root = none) :
    deadSet s = [] ∧ (gc s).cells = s.cells ∧ (gc s).dirty_root = none := by
  have hcc := count_cyclic_references_empty s h
  have hfu : find_unreachable_pointers (count_cyclic_references s).2
      (count_cyclic_references s).1
      = ([], { (count_cyclic_references s).2 with
          cells := (count_cyclic_references s).2.cells,
          trace_id := (count_cyclic_references s).2.trace_id + 1 }) := by
    rw [hcc]
    unfold find_unreachable_pointers
    show (List.filter _ [], _) = _
    rw [show List.filter (fun p =>
        decide ((s.cells p).trace.ref_count < (s.cells p).ref_count)) [] = [] from rfl]
    rw [markAliveLoop_nil]
    rfl
  constructor
  · unfold deadSet
    rw [hfu]
  · unfold gc
    dsimp only
    rw [hfu]
    constructor
    · show ((List.reverse []).foldl drop_value _).cells = _
      rw [List.reverse_nil, List.foldl_nil, hcc]
    · show ((List.reverse []).foldl drop_value _).dirty_root = _
      rw [List.reverse_nil, List.foldl_nil, hcc]

/-- C9 witness at the clean state `sLive`. -/
theorem c9_gc_noop_when_clean_witness :
    deadSet sLive = [] ∧ (gc sLive).cells = sLive.cells ∧
    (gc sLive).dirty_root = none :=
  c9_gc_noop_when_clean sLive rfl


/-! ## Single-step and fold specifications for the tracer -/

/-- A cell carries the current pass's generation id. -/
def Visited (cs : Nat → Cell) (t : Nat) (c : Nat) : Prop := (cs c).trace.id = t

instance (cs : Nat → Cell) (t c : Nat) : Decidable (Visited cs t c) :=
  inferInstanceAs (Decidable ((cs c).trace.id = t))

/-- The number of internal references to `c` from cells of `P`, counted with
multiplicity, through the traced edges of `cells`. -/
def internalRefs (cells : Nat → Cell) (P : List Nat) (c : Nat) : Nat :=
  (P.map fun p => ((cells p).edges).count c).sum

theorem internalRefs_cons (cells : Nat → Cell) (p : Nat) (P : List Nat) (c : Nat) :
    internalRefs cells (p :: P) c
      = ((cells p).edges).count c + internalRefs cells P c := by
  unfold internalRefs
  rw [List.map_cons, List.sum_cons]

theorem internalRefs_eq_zero (cells : Nat → Cell) (P : List Nat) (c : Nat)
    (h : ∀ q ∈ P, c ∉ (cells q).edges) : internalRefs cells P c = 0 := by
  induction P with
  | nil => rfl
  | cons q P ih =>
    rw [internalRefs_cons, List.count_eq_zero.mpr (h q (List.mem_cons_self q P)),
      ih (fun r hr => h r (List.mem_cons_of_mem q hr))]

theorem mark_trace_other (st : (Nat → Cell) × GCTracer) (p c : Nat) (h : c ≠ p) :
    ((mark st p).1 c).trace = (st.1 c).trace := by
  unfold mark
  dsimp only
  split_ifs <;> simp [updCell_apply, h]

theorem mark_visited_iff (st : (Nat → Cell) × GCTracer) (p c : Nat) :
    Visited (mark st p).1 st.2.trace_id c
      ↔ (Visited st.1 st.2.trace_id c ∨ c = p) := by
  rcases eq_or_ne c p with rfl | h
  · have h1 := mark_visited_self st c
    rw [(mark_tracer_fields st c).2] at h1
    unfold Visited
    simp [h1]
  · unfold Visited
    rw [mark_trace_other st p c h]
    simp [h]

theorem mark_queue_visited (st : (Nat → Cell) × GCTracer) (p : Nat)
    (h : Visited st.1 st.2.trace_id p) : (mark st p).2.queue = st.2.queue := by
  unfold Visited at h
  unfold mark
  dsimp only
  rw [if_pos h]
  split_ifs <;> rfl

theorem mark_queue_fresh (st : (Nat → Cell) × GCTracer) (p : Nat)
    (h : ¬ Visited st.1 st.2.trace_id p) :
    (mark st p).2.queue = p :: st.2.queue := by
  unfold Visited at h
  unfold mark
  dsimp only
  rw [if_neg h]

theorem mark_count_fresh (st : (Nat → Cell) × GCTracer) (p : Nat)
    (hpc : st.2.perform_count = true) (h : ¬ Visited st.1 st.2.trace_id p) :
    ((mark st p).1 p).trace.ref_count = 1 := by
  unfold Visited at h
  unfold mark
  dsimp only
  rw [if_neg h]
  simp [updCell_apply, hpc]

theorem foldl_mark_tracer_fields (es : List Nat) :
    ∀ st : (Nat → Cell) × GCTracer,
      (es.foldl mark st).2.trace_id = st.2.trace_id ∧
      (es.foldl mark st).2.perform_count = st.2.perform_count := by
  induction es with
  | nil => exact fun _ => ⟨rfl, rfl⟩
  | cons e es ih =>
    intro st
    obtain ⟨h1, h2⟩ := ih (mark st e)
    obtain ⟨g1, g2⟩ := mark_tracer_fields st e
    exact ⟨h1.trans g2, h2.trans g1⟩

theorem foldl_mark_visited_iff (es : List Nat) :
    ∀ (st : (Nat → Cell) × GCTracer) (c : Nat),
      Visited (es.foldl mark st).1 st.2.trace_id c
        ↔ (Visited st.1 st.2.trace_id c ∨ c ∈ es) := by
  induction es with
  | nil => simp
  | cons e es ih =>
    intro st c
    rw [List.foldl_cons]
    have htid : (mark st e).2.trace_id = st.2.trace_id := (mark_tracer_fields st e).2
    have := ih (mark st e) c
    rw [htid] at this
    rw [this, mark_visited_iff st e c]
    simp [or_assoc, List.mem_cons]

theorem foldl_mark_trace_untouched (es : List Nat) :
    ∀ (st : (Nat → Cell) × GCTracer) (c : Nat), c ∉ es →
      ((es.foldl mark st).1 c).trace = (st.1 c).trace := by
  induction es with
  | nil => exact fun _ _ _ => rfl
  | cons e es ih =>
    intro st c hc
    rw [List.foldl_cons, ih (mark st e) c (fun h => hc (List.mem_cons_of_mem e h)),
      mark_trace_other st e c (fun h => hc (h ▸ List.mem_cons_self e es))]

theorem foldl_mark_queue (es : List Nat) :
    ∀ st : (Nat → Cell) × GCTracer,
      ∃ fresh : List Nat,
        (es.foldl mark st).2.queue = fresh ++ st.2.queue ∧ fresh.Nodup ∧
        (∀ c, c ∈ fresh ↔ (¬ Visited st.1 st.2.trace_id c ∧ c ∈ es)) := by
  induction es with
  | nil =>
    intro st
    exact ⟨[], rfl, List.nodup_nil, by simp⟩
  | cons e es ih =>
    intro st
    obtain ⟨fresh, hq, hnd, hmem⟩ := ih (mark st e)
    have htid : (mark st e).2.trace_id = st.2.trace_id := (mark_tracer_fields st e).2
    rw [htid] at hmem
    have hmem' : ∀ c, c ∈ fresh ↔
        ((¬ Visited st.1 st.2.trace_id c ∧ c ≠ e) ∧ c ∈ es) := by
      intro c
      rw [hmem c, mark_visited_iff st e c]
      constructor
      · rintro ⟨hnv, hes⟩
        exact ⟨⟨fun hv => hnv (Or.inl hv), fun he => hnv (Or.inr he)⟩, hes⟩
      · rintro ⟨⟨hnv, hne⟩, hes⟩
        exact ⟨fun hv => hv.elim hnv hne, hes⟩
    by_cases hvis : Visited st.1 st.2.trace_id e
    · refine ⟨fresh, ?_, hnd, ?_⟩
      · rw [List.foldl_cons, hq, mark_queue_visited st e hvis]
      · intro c
        rw [hmem' c]
        constructor
        · rintro ⟨⟨hnv, _⟩, hes⟩
          exact ⟨hnv, List.mem_cons_of_mem e hes⟩
        · rintro ⟨hnv, hes⟩
          have hne : c ≠ e := fun h => hnv (h ▸ hvis)
          rcases List.mem_cons.mp hes with h | h
          · exact absurd h hne
          · exact ⟨⟨hnv, hne⟩, h⟩
    · refine ⟨fresh ++ [e], ?_, ?_, ?_⟩
      · rw [List.foldl_cons, hq, mark_queue_fresh st e hvis, List.append_assoc,
          List.singleton_append]
      · rw [List.nodup_append]
        refine ⟨hnd, List.nodup_singleton e, ?_⟩
        intro a ha hb
        rw [List.mem_singleton] at hb
        exact ((hmem' a).mp ha).1.2 hb
      · intro c
        rw [List.mem_append, List.mem_singleton, hmem' c]
        constructor
        · rintro (⟨⟨hnv, _⟩, hes⟩ | rfl)
          · exact ⟨hnv, List.mem_cons_of_mem e hes⟩
          · exact ⟨hvis, List.mem_cons_self c es⟩
        · rintro ⟨hnv, hes⟩
          rcases eq_or_ne c e with rfl | hne
          · exact Or.inr rfl
          · rcases List.mem_cons.mp hes with h | h
            · exact absurd h hne
            · exact Or.inl ⟨⟨hnv, hne⟩, h⟩

theorem foldl_mark_count (es : List Nat) :
    ∀ (st : (Nat → Cell) × GCTracer), st.2.perform_count = true →
      ∀ c, (Visited st.1 st.2.trace_id c ∨ c ∈ es) →
        ((es.foldl mark st).1 c).trace.ref_count =
          (if Visited st.1 st.2.trace_id c then (st.1 c).trace.ref_count else 0)
            + es.count c := by
  induction es with
  | nil =>
    intro st _ c hc
    rcases hc with hc | hc
    · simp [hc]
    · exact absurd hc (List.not_mem_nil c)
  | cons e es ih =>
    intro st hpc c hc
    have htid : (mark st e).2.trace_id = st.2.trace_id := (mark_tracer_fields st e).2
    have hpc1 : (mark st e).2.perform_count = true :=
      (mark_tracer_fields st e).1.trans hpc
    rw [List.foldl_cons]
    rcases eq_or_ne c e with rfl | hne
    · have hvis1 : Visited (mark st c).1 st.2.trace_id c := by
        rw [mark_visited_iff st c c]
        exact Or.inr rfl
      have := ih (mark st c) hpc1 c (by rw [htid]; exact Or.inl hvis1)
      rw [htid] at this
      rw [this, if_pos hvis1]
      by_cases hv : Visited st.1 st.2.trace_id c
      · rw [(mark_already_visited st c hv).2 hpc, if_pos hv, List.count_cons_self]
        omega
      · rw [mark_count_fresh st c hpc hv, if_neg hv, List.count_cons_self]
        omega
    · have htr : ((mark st e).1 c).trace = (st.1 c).trace := mark_trace_other st e c hne
      have hvis : Visited (mark st e).1 st.2.trace_id c ↔ Visited st.1 st.2.trace_id c := by
        unfold Visited
        rw [htr]
      have hc' : Visited (mark st e).1 st.2.trace_id c ∨ c ∈ es := by
        rcases hc with h | h
        · exact Or.inl (hvis.mpr h)
        · rcases List.mem_cons.mp h with h | h
          · exact absurd h hne
          · exact Or.inr h
      have := ih (mark st e) hpc1 c (by rw [htid]; exact hc')
      rw [htid] at this
      rw [this, List.count_cons_of_ne hne]
      by_cases hv : Visited st.1 st.2.trace_id c
      · rw [if_pos (hvis.mpr hv), if_pos hv, htr]
      · rw [if_neg (fun h => hv (hvis.mp h)), if_neg hv]

theorem foldl_mark_count_nopc (es : List Nat) :
    ∀ (st : (Nat → Cell) × GCTracer), st.2.perform_count = false →
      ∀ c, ((es.foldl mark st).1 c).trace.ref_count = (st.1 c).trace.ref_count := by
  induction es with
  | nil => exact fun _ _ _ => rfl
  | cons e es ih =>
    intro st hpc c
    have hpc1 : (mark st e).2.perform_count = false :=
      (mark_tracer_fields st e).1.trans hpc
    rw [List.foldl_cons, ih (mark st e) hpc1 c]
    rcases eq_or_ne c e with rfl | hne
    · unfold mark
      dsimp only
      split_ifs with h1 h2 h3
      · rw [hpc] at h2
        exact absurd h2 (by simp)
      · rfl
      · rw [hpc] at h3
        exact absurd h3 (by simp)
      · simp [updCell_apply]
    · rw [mark_trace_other st e c hne]


/-! ## Fuel measure for the worklist loops -/

/-- Cells of `univ` not yet stamped with the pass id `t`. -/
def unvisCount (univ : List Nat) (cs : Nat → Cell) (t : Nat) : Nat :=
  univ.countP (fun c => !((cs c).trace.id == t))

theorem unvisCount_le (univ : List Nat) (cs : Nat → Cell) (t : Nat) :
    unvisCount univ cs t ≤ univ.length :=
  List.countP_le_length _

theorem countP_split (l : List Nat) (p q : Nat → Bool)
    (himp : ∀ c, q c = true → p c = true) :
    l.countP p = l.countP q + l.countP (fun c => p c && !q c) := by
  induction l with
  | nil => rfl
  | cons a l ih =>
    rw [List.countP_cons, List.countP_cons, List.countP_cons, ih]
    rcases hq : q a with _ | _
    · rcases hp : p a with _ | _ <;> simp [hp, hq] <;> omega
    · simp [himp a hq, hq]
      omega

theorem length_le_countP (fresh univ : List Nat) (r : Nat → Bool)
    (hnd : fresh.Nodup) (hsub : ∀ c ∈ fresh, c ∈ univ)
    (hr : ∀ c ∈ fresh, r c = true) :
    fresh.length ≤ univ.countP r := by
  rw [List.countP_eq_length_filter]
  calc fresh.length = fresh.toFinset.card := (List.toFinset_card_of_nodup hnd).symm
    _ ≤ (univ.filter r).toFinset.card := by
        apply Finset.card_le_card
        intro a ha
        rw [List.mem_toFinset] at ha
        rw [List.mem_toFinset, List.mem_filter]
        exact ⟨hsub a ha, hr a ha⟩
    _ ≤ (univ.filter r).length := List.toFinset_card_le _

theorem unvis_decrease (univ : List Nat) (cs cs' : Nat → Cell) (t : Nat)
    (fresh : List Nat)
    (hmono : ∀ c, Visited cs t c → Visited cs' t c)
    (hsub : ∀ c ∈ fresh, c ∈ univ) (hnd : fresh.Nodup)
    (hunvis : ∀ c ∈ fresh, ¬ Visited cs t c)
    (hvis : ∀ c ∈ fresh, Visited cs' t c) :
    unvisCount univ cs' t + fresh.length ≤ unvisCount univ cs t := by
  unfold unvisCount
  rw [countP_split univ (fun c => !((cs c).trace.id == t))
    (fun c => !((cs' c).trace.id == t)) ?imp]
  case imp =>
    intro c hc
    simp only [Bool.not_eq_true', beq_eq_false_iff_ne, ne_eq] at hc ⊢
    exact fun h => hc (hmono c h)
  have hlen : fresh.length ≤
      univ.countP (fun c => !((cs c).trace.id == t) && !!((cs' c).trace.id == t)) := by
    apply length_le_countP fresh univ _ hnd hsub
    intro c hc
    have h1 : ¬ (cs c).trace.id = t := hunvis c hc
    have h2 : (cs' c).trace.id = t := hvis c hc
    simp [h1, h2]
  omega

/-! ## Draining the dirty list -/

theorem drainReset_other (tid : Nat) (cells : Nat → Cell) (p c : Nat) (h : c ≠ p) :
    drainReset tid cells p c = cells c := by
  unfold drainReset
  simp [updCell_apply, h]

theorem drainReset_self (tid : Nat) (cells : Nat → Cell) (p : Nat) :
    drainReset tid cells p p =
      { cells p with
          trace := { (cells p).trace with id := tid, ref_count := 0 },
          prev_dirty := none, next_dirty := none, is_dirty := false } := by
  unfold drainReset
  simp [updCell_apply]

theorem drainResets_not_mem (tid : Nat) (l : List Nat) :
    ∀ (cells : Nat → Cell) (c : Nat), c ∉ l →
      drainResets tid cells l c = cells c := by
  induction l with
  | nil => exact fun _ _ _ => rfl
  | cons p l ih =>
    intro cells c hc
    show drainResets tid (drainReset tid cells p) l c = cells c
    rw [ih _ c (fun h => hc (List.mem_cons_of_mem p h)),
      drainReset_other tid cells p c (fun h => hc (h ▸ List.mem_cons_self p l))]

theorem drainResets_mem (tid : Nat) (l : List Nat) :
    ∀ (cells : Nat → Cell) (c : Nat), c ∈ l → l.Nodup →
      drainResets tid cells l c =
        { cells c with
            trace := { (cells c).trace with id := tid, ref_count := 0 },
            prev_dirty := none, next_dirty := none, is_dirty := false } := by
  induction l with
  | nil => exact fun _ _ h _ => absurd h (List.not_mem_nil _)
  | cons p l ih =>
    intro cells c hc hnd
    show drainResets tid (drainReset tid cells p) l c = _
    rcases eq_or_ne c p with rfl | hne
    · rw [drainResets_not_mem tid l _ c ((List.nodup_cons.mp hnd).1),
        drainReset_self]
    · rcases List.mem_cons.mp hc with h | h
      · exact absurd h hne
      · rw [ih _ c h (List.nodup_cons.mp hnd).2,
          drainReset_other tid cells p c hne]

/-- One unfolding of the phase-1 worklist loop. -/
theorem tallyLoop_cons (fuel : Nat) (cs : Nat → Cell) (p : Nat)
    (rest acc : List Nat) (pc : Bool) (tid : Nat) :
    tallyLoop (fuel + 1) (cs, { queue := p :: rest, perform_count := pc, trace_id := tid }) acc
      = tallyLoop fuel
          (updCell (trace_content (cs, { queue := rest, perform_count := pc, trace_id := tid }) p).1 p
              (fun c => { c with trace := { c.trace with dead := true } }),
           (trace_content (cs, { queue := rest, perform_count := pc, trace_id := tid }) p).2)
          (p :: acc) := rfl

/-- One unfolding of the phase-2 worklist loop. -/
theorem markAliveLoop_cons (fuel : Nat) (cs : Nat → Cell) (p : Nat)
    (rest : List Nat) (pc : Bool) (tid : Nat) :
    markAliveLoop (fuel + 1) (cs, { queue := p :: rest, perform_count := pc, trace_id := tid })
      = markAliveLoop fuel
          (trace_content
            (updCell cs p (fun c => { c with trace := { c.trace with dead := false } }),
             { queue := rest, perform_count := pc, trace_id := tid }) p) := rfl


/-! ## Phase 1: the tally loop invariant -/

theorem gcTracer_eq (g : GCTracer) (q : List Nat) (b : Bool) (n : Nat)
    (h1 : g.queue = q) (h2 : g.perform_count = b) (h3 : g.trace_id = n) :
    g = { queue := q, perform_count := b, trace_id := n } := by
  cases g
  cases h1
  cases h2
  cases h3
  rfl

/-- The invariant of the phase-1 worklist loop.  `cells0` is the heap right
after the drain, `roots` the drained dirty list, `t` the pass id, `cs` the
current heap, `queue` the tracer worklist and `acc` the candidates collected
so far. -/
structure TallyInv (cells0 : Nat → Cell) (univ roots : List Nat) (t : Nat)
    (cs : Nat → Cell) (queue acc : List Nat) : Prop where
  queue_nodup : queue.Nodup
  acc_nodup : acc.Nodup
  disj : ∀ c, c ∈ queue → c ∉ acc
  visited_iff : ∀ c, Visited cs t c ↔ (c ∈ queue ∨ c ∈ acc)
  counts : ∀ c, Visited cs t c → (cs c).trace.ref_count = internalRefs cells0 acc c
  closed : ∀ c, c ∈ acc → ∀ e, e ∈ (cells0 c).edges → Visited cs t e
  reach : ∀ c, Visited cs t c → ∃ r, r ∈ roots ∧ Reaches cells0 r c
  nontrace : NonTraceEq cells0 cs
  dead_acc : ∀ c, c ∈ acc → (cs c).trace.dead = true
  dead_other : ∀ c, c ∉ acc → (cs c).trace.dead = (cells0 c).trace.dead
  untouched : ∀ c, ¬ Visited cs t c → (cs c).trace = (cells0 c).trace
  sub_univ : ∀ c, Visited cs t c → c ∈ univ

theorem tally_step (cells0 : Nat → Cell) (univ roots : List Nat) (t : Nat)
    (Hedge : ∀ c e, e ∈ (cells0 c).edges → e ∈ univ)
    (cs : Nat → Cell) (p : Nat) (rest acc : List Nat)
    (cs1 : Nat → Cell) (tr1 : GCTracer)
    (hstep : trace_content
      (cs, { queue := rest, perform_count := true, trace_id := t }) p = (cs1, tr1))
    (inv : TallyInv cells0 univ roots t cs (p :: rest) acc) :
    ∃ fresh : List Nat,
      tr1 = { queue := fresh ++ rest, perform_count := true, trace_id := t } ∧
      TallyInv cells0 univ roots t
        (updCell cs1 p (fun c => { c with trace := { c.trace with dead := true } }))
        (fresh ++ rest) (p :: acc) ∧
      2 * unvisCount univ
          (updCell cs1 p (fun c => { c with trace := { c.trace with dead := true } })) t
        + (fresh ++ rest).length + 1
        ≤ 2 * unvisCount univ cs t + (p :: rest).length := by
  have hpair : ((cs p).edges.foldl mark
      (cs, { queue := rest, perform_count := true, trace_id := t })) = (cs1, tr1) := hstep
  have hpq : p ∈ p :: rest := List.mem_cons_self p rest
  have hp_vis : Visited cs t p := (inv.visited_iff p).mpr (Or.inl hpq)
  have hp_nacc : p ∉ acc := inv.disj p hpq
  obtain ⟨hp_nrest, hrest_nd⟩ := List.nodup_cons.mp inv.queue_nodup
  have hedges_eq : (cs p).edges = (cells0 p).edges := nonTraceEq_edges inv.nontrace p
  -- instantiate the fold lemmas and rewrite them onto `cs1`, `tr1`
  obtain ⟨fresh, hq, hfnd, hfmem⟩ := foldl_mark_queue ((cs p).edges)
      (cs, { queue := rest, perform_count := true, trace_id := t })
  rw [hpair] at hq
  dsimp only at hq hfmem
  have htrf := foldl_mark_tracer_fields ((cs p).edges)
      (cs, { queue := rest, perform_count := true, trace_id := t })
  rw [hpair] at htrf
  dsimp only at htrf
  have hvis1 := foldl_mark_visited_iff ((cs p).edges)
      (cs, { queue := rest, perform_count := true, trace_id := t })
  rw [hpair] at hvis1
  dsimp only at hvis1
  have hcnt1 := foldl_mark_count ((cs p).edges)
      (cs, { queue := rest, perform_count := true, trace_id := t }) rfl
  rw [hpair] at hcnt1
  dsimp only at hcnt1
  have huntouched1 := foldl_mark_trace_untouched ((cs p).edges)
      (cs, { queue := rest, perform_count := true, trace_id := t })
  rw [hpair] at huntouched1
  dsimp only at huntouched1
  have hdead1 := foldl_mark_dead_eq ((cs p).edges)
      (cs, { queue := rest, perform_count := true, trace_id := t })
  rw [hpair] at hdead1
  dsimp only at hdead1
  have hnt1 : NonTraceEq cs cs1 := by
    have h := foldl_mark_nonTraceEq ((cs p).edges)
      (cs, { queue := rest, perform_count := true, trace_id := t })
    rw [hpair] at h
    exact h
  -- facts about the dead-flag update
  have h2eq_other : ∀ c, c ≠ p →
      updCell cs1 p (fun c => { c with trace := { c.trace with dead := true } }) c
        = cs1 c := by
    intro c hc
    simp [updCell_apply, hc]
  have h2id : ∀ c,
      (updCell cs1 p (fun c => { c with trace := { c.trace with dead := true } }) c).trace.id
        = (cs1 c).trace.id := by
    intro c
    simp [updCell_apply]
    split_ifs <;> simp
  have h2rc : ∀ c,
      (updCell cs1 p (fun c => { c with trace := { c.trace with dead := true } }) c).trace.ref_count
        = (cs1 c).trace.ref_count := by
    intro c
    simp [updCell_apply]
    split_ifs <;> simp
  have h2vis : ∀ c,
      Visited (updCell cs1 p (fun c => { c with trace := { c.trace with dead := true } })) t c
        ↔ Visited cs1 t c := by
    intro c
    unfold Visited
    rw [h2id c]
  have h2dead_self :
      (updCell cs1 p (fun c => { c with trace := { c.trace with dead := true } }) p).trace.dead
        = true := by
    simp [updCell_apply]
  have h2nt : NonTraceEq cs1
      (updCell cs1 p (fun c => { c with trace := { c.trace with dead := true } })) := by
    intro q
    simp [updCell_apply]
    split_ifs <;> simp
  refine ⟨fresh, gcTracer_eq tr1 _ _ _ hq htrf.2 htrf.1, ?_, ?_⟩
  · constructor
    case queue_nodup =>
      rw [List.nodup_append]
      refine ⟨hfnd, hrest_nd, ?_⟩
      intro a ha hb
      exact ((hfmem a).mp ha).1
        ((inv.visited_iff a).mpr (Or.inl (List.mem_cons_of_mem p hb)))
    case acc_nodup => exact List.nodup_cons.mpr ⟨hp_nacc, inv.acc_nodup⟩
    case disj =>
      intro c hc
      rcases List.mem_append.mp hc with hc | hc
      · intro hmem
        rcases List.mem_cons.mp hmem with rfl | hmem
        · exact ((hfmem c).mp hc).1 hp_vis
        · exact ((hfmem c).mp hc).1 ((inv.visited_iff c).mpr (Or.inr hmem))
      · intro hmem
        rcases List.mem_cons.mp hmem with rfl | hmem
        · exact hp_nrest hc
        · exact inv.disj c (List.mem_cons_of_mem p hc) hmem
    case visited_iff =>
      intro c
      rw [h2vis c, hvis1 c]
      constructor
      · rintro (hv | he)
        · rcases (inv.visited_iff c).mp hv with hq' | ha
          · rcases List.mem_cons.mp hq' with rfl | hr
            · exact Or.inr (List.mem_cons_self c acc)
            · exact Or.inl (List.mem_append.mpr (Or.inr hr))
          · exact Or.inr (List.mem_cons_of_mem p ha)
        · by_cases hv : Visited cs t c
          · rcases (inv.visited_iff c).mp hv with hq' | ha
            · rcases List.mem_cons.mp hq' with rfl | hr
              · exact Or.inr (List.mem_cons_self c acc)
              · exact Or.inl (List.mem_append.mpr (Or.inr hr))
            · exact Or.inr (List.mem_cons_of_mem p ha)
          · exact Or.inl (List.mem_append.mpr (Or.inl ((hfmem c).mpr ⟨hv, he⟩)))
      · rintro (hc | hc)
        · rcases List.mem_append.mp hc with hc | hc
          · exact Or.inr ((hfmem c).mp hc).2
          · exact Or.inl ((inv.visited_iff c).mpr (Or.inl (List.mem_cons_of_mem p hc)))
        · rcases List.mem_cons.mp hc with rfl | hc
          · exact Or.inl hp_vis
          · exact Or.inl ((inv.visited_iff c).mpr (Or.inr hc))
    case counts =>
      intro c hvc
      rw [show (updCell cs1 p (fun c => { c with trace := { c.trace with dead := true } }) c).trace.ref_count = (cs1 c).trace.ref_count from h2rc c,
        internalRefs_cons]
      have hc' : Visited cs t c ∨ c ∈ (cs p).edges := (hvis1 c).mp ((h2vis c).mp hvc)
      rw [hcnt1 c hc', hedges_eq]
      by_cases hv : Visited cs t c
      · rw [if_pos hv, inv.counts c hv]
        omega
      · rw [if_neg hv, internalRefs_eq_zero cells0 acc c
          (fun q hqa hce => hv (inv.closed q hqa c hce))]
        omega
    case closed =>
      intro c hc e he
      rw [h2vis e]
      rcases List.mem_cons.mp hc with rfl | hc
      · exact (hvis1 e).mpr (Or.inr (hedges_eq ▸ he))
      · exact (hvis1 e).mpr (Or.inl (inv.closed c hc e he))
    case reach =>
      intro c hvc
      rcases (hvis1 c).mp ((h2vis c).mp hvc) with hv | he
      · exact inv.reach c hv
      · obtain ⟨r, hr, hrp⟩ := inv.reach p hp_vis
        exact ⟨r, hr, Relation.ReflTransGen.tail hrp (hedges_eq ▸ he)⟩
    case nontrace => exact nonTraceEq_trans (nonTraceEq_trans inv.nontrace hnt1) h2nt
    case dead_acc =>
      intro c hc
      rcases List.mem_cons.mp hc with rfl | hc
      · exact h2dead_self
      · have hcp : c ≠ p := fun h => hp_nacc (h ▸ hc)
        rw [h2eq_other c hcp, hdead1 c]
        exact inv.dead_acc c hc
    case dead_other =>
      intro c hc
      have hcp : c ≠ p := fun h => hc (h ▸ List.mem_cons_self p acc)
      have hca : c ∉ acc := fun h => hc (List.mem_cons_of_mem p h)
      rw [h2eq_other c hcp, hdead1 c]
      exact inv.dead_other c hca
    case untouched =>
      intro c hnv
      have hnv1 : ¬ Visited cs1 t c := fun h => hnv ((h2vis c).mpr h)
      have hnvc : ¬ Visited cs t c := fun h => hnv1 ((hvis1 c).mpr (Or.inl h))
      have hne : c ∉ (cs p).edges := fun h => hnv1 ((hvis1 c).mpr (Or.inr h))
      have hcp : c ≠ p := fun h => hnvc (h ▸ hp_vis)
      rw [h2eq_other c hcp, huntouched1 c hne]
      exact inv.untouched c hnvc
    case sub_univ =>
      intro c hvc
      rcases (hvis1 c).mp ((h2vis c).mp hvc) with hv | he
      · exact inv.sub_univ c hv
      · exact Hedge p c (hedges_eq ▸ he)
  · have hdec := unvis_decrease univ cs
      (updCell cs1 p (fun c => { c with trace := { c.trace with dead := true } })) t fresh
      (fun c hv => (h2vis c).mpr ((hvis1 c).mpr (Or.inl hv)))
      (fun c hc => Hedge p c (hedges_eq ▸ ((hfmem c).mp hc).2))
      hfnd
      (fun c hc => ((hfmem c).mp hc).1)
      (fun c hc => (h2vis c).mpr ((hvis1 c).mpr (Or.inr ((hfmem c).mp hc).2)))
    rw [List.length_append]
    simp only [List.length_cons]
    dsimp only at hdec ⊢
    omega


theorem tallyLoop_spec (cells0 : Nat → Cell) (univ roots : List Nat) (t : Nat)
    (Hedge : ∀ c e, e ∈ (cells0 c).edges → e ∈ univ) :
    ∀ (fuel : Nat) (cs : Nat → Cell) (queue acc : List Nat),
      2 * unvisCount univ cs t + queue.length < fuel →
      TallyInv cells0 univ roots t cs queue acc →
      (tallyLoop fuel (cs, { queue := queue, perform_count := true, trace_id := t }) acc).2.1.queue = [] ∧
      TallyInv cells0 univ roots t
        (tallyLoop fuel (cs, { queue := queue, perform_count := true, trace_id := t }) acc).1 []
        (tallyLoop fuel (cs, { queue := queue, perform_count := true, trace_id := t }) acc).2.2 ∧
      (∀ c, Visited cs t c →
        Visited (tallyLoop fuel (cs, { queue := queue, perform_count := true, trace_id := t }) acc).1 t c) := by
  intro fuel
  induction fuel with
  | zero =>
    intro cs queue acc hf _
    omega
  | succ fuel ih =>
    intro cs queue acc hf inv
    cases queue with
    | nil =>
      rw [tallyLoop_nil]
      exact ⟨rfl, inv, fun _ h => h⟩
    | cons p rest =>
      obtain ⟨fresh, htr, inv2, hdec⟩ := tally_step cells0 univ roots t Hedge cs p rest acc
        (trace_content (cs, { queue := rest, perform_count := true, trace_id := t }) p).1
        (trace_content (cs, { queue := rest, perform_count := true, trace_id := t }) p).2
        rfl inv
      rw [tallyLoop_cons, htr]
      have hf2 : 2 * unvisCount univ
          (updCell (trace_content (cs, { queue := rest, perform_count := true, trace_id := t }) p).1 p
            (fun c => { c with trace := { c.trace with dead := true } })) t
          + (fresh ++ rest).length < fuel := by
        simp only [List.length_cons] at hf hdec
        dsimp only
        omega
      obtain ⟨g1, g2, g3⟩ := ih
        (updCell (trace_content (cs, { queue := rest, perform_count := true, trace_id := t }) p).1 p
          (fun c => { c with trace := { c.trace with dead := true } }))
        (fresh ++ rest) (p :: acc) hf2 inv2
      refine ⟨g1, g2, ?_⟩
      intro c hv
      apply g3
      rcases (inv.visited_iff c).mp hv with hq | ha
      · rcases List.mem_cons.mp hq with rfl | hr
        · exact (inv2.visited_iff c).mpr (Or.inr (List.mem_cons_self c acc))
        · exact (inv2.visited_iff c).mpr (Or.inl (List.mem_append.mpr (Or.inr hr)))
      · exact (inv2.visited_iff c).mpr (Or.inr (List.mem_cons_of_mem p ha))

theorem reaches_congr {a b : Nat → Cell} (h : ∀ c, (b c).edges = (a c).edges)
    {x y : Nat} (hr : Reaches b x y) : Reaches a x y := by
  induction hr with
  | refl => exact Relation.ReflTransGen.refl
  | tail _ hedge ih =>
    refine Relation.ReflTransGen.tail ih ?_
    rw [← h _]
    exact hedge

theorem internalRefs_congr {a b : Nat → Cell}
    (h : ∀ c, (b c).edges = (a c).edges) (P : List Nat) (c : Nat) :
    internalRefs b P c = internalRefs a P c := by
  induction P with
  | nil => rfl
  | cons p P ih => rw [internalRefs_cons, internalRefs_cons, h p, ih]

/-- Full specification of phase 1 (`count_cyclic_references`): the candidate
list is exactly the closure of the drained dirty roots, is duplicate-free,
lies inside the allocated cells, its tallies count the internal references
from inside the candidate set, its members are flagged dead (and only they
change their dead flag), trace ids stay bounded by the new counter, and the
candidate set is closed under traced edges. -/
theorem count_cyclic_references_spec (s : GCState) (roots : List Nat)
    (hroots : dirtyListFrom s.cells (s.univ.length + 1) s.dirty_root = roots)
    (hroots_nodup : roots.Nodup)
    (hroots_univ : ∀ c, c ∈ roots → c ∈ s.univ)
    (hids : ∀ c, (s.cells c).trace.id ≤ s.trace_id)
    (hedges : ∀ c e, e ∈ (s.cells c).edges → e ∈ s.univ) :
    (∀ c, c ∈ (count_cyclic_references s).1 ↔ ∃ r, r ∈ roots ∧ Reaches s.cells r c) ∧
    (∀ c, c ∈ (count_cyclic_references s).1 →
      ((count_cyclic_references s).2.cells c).trace.ref_count
        = internalRefs s.cells (count_cyclic_references s).1 c) ∧
    ((count_cyclic_references s).1.Nodup) ∧
    (∀ c, c ∈ (count_cyclic_references s).1 → c ∈ s.univ) ∧
    (∀ c, c ∈ (count_cyclic_references s).1 →
      ((count_cyclic_references s).2.cells c).trace.dead = true) ∧
    (∀ c, c ∉ (count_cyclic_references s).1 →
      ((count_cyclic_references s).2.cells c).trace.dead = (s.cells c).trace.dead) ∧
    (∀ c, ((count_cyclic_references s).2.cells c).trace.id ≤ s.trace_id + 1) ∧
    (∀ c, c ∈ (count_cyclic_references s).1 → ∀ e, e ∈ (s.cells c).edges →
      e ∈ (count_cyclic_references s).1) := by
  have hD_edges : ∀ c, (drainResets (s.trace_id + 1) s.cells roots c).edges
      = (s.cells c).edges := by
    intro c
    unfold Cell.edges
    rw [(drainResets_fields (s.trace_id + 1) roots s.cells c).1]
  have hD_id_mem : ∀ c, c ∈ roots →
      (drainResets (s.trace_id + 1) s.cells roots c).trace.id = s.trace_id + 1 := by
    intro c hc
    rw [drainResets_mem (s.trace_id + 1) roots s.cells c hc hroots_nodup]
  have hD_rc_mem : ∀ c, c ∈ roots →
      (drainResets (s.trace_id + 1) s.cells roots c).trace.ref_count = 0 := by
    intro c hc
    rw [drainResets_mem (s.trace_id + 1) roots s.cells c hc hroots_nodup]
  have hD_not : ∀ c, c ∉ roots →
      drainResets (s.trace_id + 1) s.cells roots c = s.cells c := by
    intro c hc
    exact drainResets_not_mem (s.trace_id + 1) roots s.cells c hc
  have hvis0 : ∀ c, Visited (drainResets (s.trace_id + 1) s.cells roots)
      (s.trace_id + 1) c ↔ c ∈ roots := by
    intro c
    by_cases hc : c ∈ roots
    · simp [Visited, hD_id_mem c hc, hc]
    · have := hids c
      simp [Visited, hD_not c hc, hc]
      omega
  have inv0 : TallyInv (drainResets (s.trace_id + 1) s.cells roots) s.univ roots
      (s.trace_id + 1) (drainResets (s.trace_id + 1) s.cells roots)
      roots.reverse [] := by
    constructor
    case queue_nodup => exact List.nodup_reverse.mpr hroots_nodup
    case acc_nodup => exact List.nodup_nil
    case disj => exact fun c _ h => (List.not_mem_nil c) h
    case visited_iff =>
      intro c
      rw [hvis0 c, List.mem_reverse]
      simp
    case counts =>
      intro c hv
      rw [hD_rc_mem c ((hvis0 c).mp hv)]
      rfl
    case closed => exact fun c hc => absurd hc (List.not_mem_nil c)
    case reach =>
      intro c hv
      exact ⟨c, (hvis0 c).mp hv, Relation.ReflTransGen.refl⟩
    case nontrace => exact nonTraceEq_rfl _
    case dead_acc => exact fun c hc => absurd hc (List.not_mem_nil c)
    case dead_other => exact fun c _ => rfl
    case untouched => exact fun c _ => rfl
    case sub_univ => exact fun c hv => hroots_univ c ((hvis0 c).mp hv)
  have hfuel : 2 * unvisCount s.univ (drainResets (s.trace_id + 1) s.cells roots)
        (s.trace_id + 1) + (roots.reverse).length
      < 2 * s.univ.length + (roots.reverse).length + 1 := by
    have := unvisCount_le s.univ (drainResets (s.trace_id + 1) s.cells roots)
      (s.trace_id + 1)
    omega
  obtain ⟨hq, invF, hmono⟩ := tallyLoop_spec
    (drainResets (s.trace_id + 1) s.cells roots) s.univ roots (s.trace_id + 1)
    (fun c e he => hedges c e ((hD_edges c) ▸ he))
    (2 * s.univ.length + (roots.reverse).length + 1)
    (drainResets (s.trace_id + 1) s.cells roots) roots.reverse [] hfuel inv0
  -- name the loop output
  have hcc : count_cyclic_references s
      = ((tallyLoop (2 * s.univ.length + (roots.reverse).length + 1)
            (drainResets (s.trace_id + 1) s.cells roots,
             { queue := roots.reverse, perform_count := true, trace_id := s.trace_id + 1 }) []).2.2,
         { s with
            cells := (tallyLoop (2 * s.univ.length + (roots.reverse).length + 1)
              (drainResets (s.trace_id + 1) s.cells roots,
               { queue := roots.reverse, perform_count := true, trace_id := s.trace_id + 1 }) []).1,
            dirty_root := none, trace_id := s.trace_id + 1 }) := by
    unfold count_cyclic_references
    rw [hroots]
  rw [hcc]
  dsimp only
  have hmem_iff : ∀ c,
      c ∈ (tallyLoop (2 * s.univ.length + (roots.reverse).length + 1)
        (drainResets (s.trace_id + 1) s.cells roots,
         { queue := roots.reverse, perform_count := true, trace_id := s.trace_id + 1 }) []).2.2
      ↔ Visited (tallyLoop (2 * s.univ.length + (roots.reverse).length + 1)
          (drainResets (s.trace_id + 1) s.cells roots,
           { queue := roots.reverse, perform_count := true, trace_id := s.trace_id + 1 }) []).1
          (s.trace_id + 1) c := by
    intro c
    rw [invF.visited_iff c]
    simp
  refine ⟨?_, ?_, invF.acc_nodup, ?_, ?_, ?_, ?_, ?_⟩
  · intro c
    constructor
    · intro hc
      obtain ⟨r, hr, hreach⟩ := invF.reach c ((hmem_iff c).mp hc)
      exact ⟨r, hr, reaches_congr hD_edges hreach⟩
    · rintro ⟨r, hr, hreach⟩
      have hreach' : Reaches (drainResets (s.trace_id + 1) s.cells roots) r c := by
        refine reaches_congr (fun c => (hD_edges c).symm) ?_
        exact hreach
      clear hreach
      induction hreach' with
      | refl =>
        exact (hmem_iff r).mpr (hmono r ((hvis0 r).mpr hr))
      | tail hxm hedge ih =>
        rename_i x m
        exact (hmem_iff m).mpr
          (invF.closed x ih m hedge)
  · intro c hc
    rw [invF.counts c ((hmem_iff c).mp hc)]
    exact internalRefs_congr hD_edges _ c
  · intro c hc
    exact invF.sub_univ c ((hmem_iff c).mp hc)
  · intro c hc
    exact invF.dead_acc c hc
  · intro c hc
    rw [invF.dead_other c hc]
    exact (drainResets_fields (s.trace_id + 1) roots s.cells c).2.2
  · intro c
    by_cases hv : Visited (tallyLoop (2 * s.univ.length + (roots.reverse).length + 1)
        (drainResets (s.trace_id + 1) s.cells roots,
         { queue := roots.reverse, perform_count := true, trace_id := s.trace_id + 1 }) []).1
        (s.trace_id + 1) c
    · rw [hv]
    · rw [congrArg TraceData.id (invF.untouched c hv)]
      by_cases hc : c ∈ roots
      · rw [hD_id_mem c hc]
      · rw [congrArg TraceData.id (congrArg Cell.trace (hD_not c hc))]
        exact Nat.le_succ_of_le (hids c)
  · intro c hc e he
    rw [hmem_iff e]
    exact invF.closed c hc e ((hD_edges c).symm ▸ he)


/-! ## C2: phase 1 computes exact internal-reference tallies -/

/-- C2: after phase 1 of `gc()` (the tally traversal seeded from the drained
dirty list `roots`), the candidate list `P` is exactly the transitive closure
of the dirty roots through traced edges, and every `c ∈ P` carries
`trace.ref_count` equal to the number of references to `c` that originate
from cells inside `P`.  Hypotheses: the dirty list drains to `roots`
(duplicate-free, allocated), trace ids are bounded by the manager counter
(they are only ever assigned from it), and edges point at allocated cells. -/
theorem c2_phase1_tally_exact (s : GCState) (roots : List Nat)
    (hroots : dirtyListFrom s.cells (s.univ.length + 1) s.dirty_root = roots)
    (hroots_nodup : roots.Nodup)
    (hroots_univ : ∀ c, c ∈ roots → c ∈ s.univ)
    (hids : ∀ c, (s.cells c).trace.id ≤ s.trace_id)
    (hedges : ∀ c e, e ∈ (s.cells c).edges → e ∈ s.univ) :
    (∀ c, c ∈ (count_cyclic_references s).1 ↔ ∃ r, r ∈ roots ∧ Reaches s.cells r c) ∧
    (∀ c, c ∈ (count_cyclic_references s).1 →
      ((count_cyclic_references s).2.cells c).trace.ref_count
        = internalRefs s.cells (count_cyclic_references s).1 c) := by
  obtain ⟨h1, h2, _⟩ := count_cyclic_references_spec s roots hroots hroots_nodup
    hroots_univ hids hedges
  exact ⟨h1, h2⟩

/-- A heap with a dirty two-cycle 1 ↔ 2 plus an external cell 3 that also
holds a handle to 1 (so cell 1 has `ref_count = 2`). -/
def sCyc : GCState :=
  { cells := fun i =>
      if i = 1 then
        { value := some [2], ref_count := 2,
          trace := { id := 0, ref_count := 0, dead := false },
          is_dirty := true, prev_dirty := none, next_dirty := some 2 }
      else if i = 2 then
        { value := some [1], ref_count := 1,
          trace := { id := 0, ref_count := 0, dead := false },
          is_dirty := true, prev_dirty := some 1, next_dirty := none }
      else if i = 3 then
        { value := some [1], ref_count := 1,
          trace := { id := 0, ref_count := 0, dead := false },
          is_dirty := false, prev_dirty := none, next_dirty := none }
      else blankCell,
    univ := [1, 2, 3], dirty_root := some 1, trace_id := 0 }

theorem sCyc_ids : ∀ c, (sCyc.cells c).trace.id ≤ sCyc.trace_id := by
  intro c
  show (sCyc.cells c).trace.id ≤ 0
  unfold sCyc blankCell
  dsimp only
  split_ifs <;> exact Nat.le_refl 0

theorem sCyc_edges : ∀ c e, e ∈ (sCyc.cells c).edges → e ∈ sCyc.univ := by
  intro c e he
  show e ∈ [1, 2, 3]
  revert he
  show e ∈ (sCyc.cells c).edges → _
  unfold sCyc blankCell Cell.edges
  dsimp only
  split_ifs <;> intro he <;> simp at he <;> simp [he]

/-- C2 witness: on `sCyc` the candidate set contains the dirty cycle cell 1,
and its tally is 1 — exactly the one reference from inside the candidate
set (cell 3's reference is external to the closure and is not counted). -/
theorem c2_phase1_tally_exact_witness :
    1 ∈ (count_cyclic_references sCyc).1 ∧
    ((count_cyclic_references sCyc).2.cells 1).trace.ref_count
      = internalRefs sCyc.cells (count_cyclic_references sCyc).1 1 ∧
    ((count_cyclic_references sCyc).2.cells 1).trace.ref_count = 1 := by
  obtain ⟨h1, h2⟩ := c2_phase1_tally_exact sCyc [1, 2] (by decide) (by decide)
    (by decide) sCyc_ids sCyc_edges
  refine ⟨(h1 1).mpr ⟨1, by decide, Relation.ReflTransGen.refl⟩, h2 1 ?_, ?_⟩
  · exact (h1 1).mpr ⟨1, by decide, Relation.ReflTransGen.refl⟩
  · decide


/-! ## Phase 2: the mark-alive loop invariant -/

/-- Invariant of the phase-2 loop: every visited cell is either still queued
or fully processed (dead flag cleared, successors visited). -/
structure AliveInv (cells0 : Nat → Cell) (t : Nat) (cs : Nat → Cell)
    (queue : List Nat) : Prop where
  inv_vis : ∀ v, Visited cs t v →
    v ∈ queue ∨
    ((cs v).trace.dead = false ∧ ∀ e, e ∈ (cells0 v).edges → Visited cs t e)
  nontrace : NonTraceEq cells0 cs

theorem alive_step (cells0 : Nat → Cell) (univ : List Nat) (t : Nat)
    (Hedge : ∀ c e, e ∈ (cells0 c).edges → e ∈ univ)
    (cs : Nat → Cell) (p : Nat) (rest : List Nat)
    (cs2 : Nat → Cell) (tr2 : GCTracer)
    (hstep : trace_content
      (updCell cs p (fun c => { c with trace := { c.trace with dead := false } }),
       { queue := rest, perform_count := false, trace_id := t }) p = (cs2, tr2))
    (inv : AliveInv cells0 t cs (p :: rest)) :
    ∃ fresh : List Nat,
      tr2 = { queue := fresh ++ rest, perform_count := false, trace_id := t } ∧
      AliveInv cells0 t cs2 (fresh ++ rest) ∧
      2 * unvisCount univ cs2 t + (fresh ++ rest).length + 1
        ≤ 2 * unvisCount univ cs t + (p :: rest).length ∧
      (cs2 p).trace.dead = false ∧
      (∀ e, e ∈ (cells0 p).edges → Visited cs2 t e) ∧
      (∀ c, (cs c).trace.dead = false → (cs2 c).trace.dead = false) ∧
      (∀ c, Visited cs t c → Visited cs2 t c) ∧
      NonTraceEq cs cs2 := by
  have hpair : ((updCell cs p (fun c => { c with trace := { c.trace with dead := false } }) p).edges.foldl
      mark
      (updCell cs p (fun c => { c with trace := { c.trace with dead := false } }),
       { queue := rest, perform_count := false, trace_id := t })) = (cs2, tr2) := hstep
  have h1other : ∀ c, c ≠ p →
      updCell cs p (fun c => { c with trace := { c.trace with dead := false } }) c = cs c := by
    intro c hc
    simp [updCell_apply, hc]
  have h1id : ∀ c,
      (updCell cs p (fun c => { c with trace := { c.trace with dead := false } }) c).trace.id
        = (cs c).trace.id := by
    intro c
    simp [updCell_apply]
    split_ifs <;> simp
  have h1vis : ∀ c,
      Visited (updCell cs p (fun c => { c with trace := { c.trace with dead := false } })) t c
        ↔ Visited cs t c := by
    intro c
    unfold Visited
    rw [h1id c]
  have h1dead_self :
      (updCell cs p (fun c => { c with trace := { c.trace with dead := false } }) p).trace.dead
        = false := by
    simp [updCell_apply]
  have h1nt : NonTraceEq cs
      (updCell cs p (fun c => { c with trace := { c.trace with dead := false } })) := by
    intro q
    simp [updCell_apply]
    split_ifs <;> simp
  have h1edges : ∀ c,
      (updCell cs p (fun c => { c with trace := { c.trace with dead := false } }) c).edges
        = (cells0 c).edges := by
    intro c
    rw [nonTraceEq_edges h1nt c, nonTraceEq_edges inv.nontrace c]
  -- fold lemmas on the traced edge list
  obtain ⟨fresh, hq, hfnd, hfmem⟩ := foldl_mark_queue
    ((updCell cs p (fun c => { c with trace := { c.trace with dead := false } }) p).edges)
    (updCell cs p (fun c => { c with trace := { c.trace with dead := false } }),
     { queue := rest, perform_count := false, trace_id := t })
  rw [hpair] at hq
  dsimp only at hq hfmem
  have htrf := foldl_mark_tracer_fields
    ((updCell cs p (fun c => { c with trace := { c.trace with dead := false } }) p).edges)
    (updCell cs p (fun c => { c with trace := { c.trace with dead := false } }),
     { queue := rest, perform_count := false, trace_id := t })
  rw [hpair] at htrf
  dsimp only at htrf
  have hvis2 := foldl_mark_visited_iff
    ((updCell cs p (fun c => { c with trace := { c.trace with dead := false } }) p).edges)
    (updCell cs p (fun c => { c with trace := { c.trace with dead := false } }),
     { queue := rest, perform_count := false, trace_id := t })
  rw [hpair] at hvis2
  dsimp only at hvis2
  have hdead2 := foldl_mark_dead_eq
    ((updCell cs p (fun c => { c with trace := { c.trace with dead := false } }) p).edges)
    (updCell cs p (fun c => { c with trace := { c.trace with dead := false } }),
     { queue := rest, perform_count := false, trace_id := t })
  rw [hpair] at hdead2
  dsimp only at hdead2
  have huntouched2 := foldl_mark_trace_untouched
    ((updCell cs p (fun c => { c with trace := { c.trace with dead := false } }) p).edges)
    (updCell cs p (fun c => { c with trace := { c.trace with dead := false } }),
     { queue := rest, perform_count := false, trace_id := t })
  rw [hpair] at huntouched2
  dsimp only at huntouched2
  have hnt2 : NonTraceEq
      (updCell cs p (fun c => { c with trace := { c.trace with dead := false } })) cs2 := by
    have h := foldl_mark_nonTraceEq
      ((updCell cs p (fun c => { c with trace := { c.trace with dead := false } }) p).edges)
      (updCell cs p (fun c => { c with trace := { c.trace with dead := false } }),
       { queue := rest, perform_count := false, trace_id := t })
    rw [hpair] at h
    exact h
  -- visitedness and dead flags through the whole body
  have hvisB : ∀ c, Visited cs2 t c ↔
      (Visited cs t c ∨ c ∈ (cells0 p).edges) := by
    intro c
    rw [hvis2 c, h1vis c, h1edges p]
  have hdeadB : ∀ c, c ≠ p → (cs2 c).trace.dead = (cs c).trace.dead := by
    intro c hc
    rw [hdead2 c, h1other c hc]
  have hdeadBp : (cs2 p).trace.dead = false := by
    rw [hdead2 p]
    exact h1dead_self
  have hmonoB : ∀ c, Visited cs t c → Visited cs2 t c :=
    fun c hv => (hvisB c).mpr (Or.inl hv)
  have hedgeB : ∀ e, e ∈ (cells0 p).edges → Visited cs2 t e :=
    fun e he => (hvisB e).mpr (Or.inr he)
  have hfmem' : ∀ c, c ∈ fresh ↔
      (¬ Visited cs t c ∧ c ∈ (cells0 p).edges) := by
    intro c
    rw [hfmem c]
    rw [h1edges p]
    constructor
    · rintro ⟨hnv, he⟩
      exact ⟨fun hv => hnv ((h1vis c).mpr hv), he⟩
    · rintro ⟨hnv, he⟩
      exact ⟨fun hv => hnv ((h1vis c).mp hv), he⟩
  refine ⟨fresh, gcTracer_eq tr2 _ _ _ hq htrf.2 htrf.1, ?_, ?_, hdeadBp, hedgeB, ?_, hmonoB, nonTraceEq_trans h1nt hnt2⟩
  · constructor
    case inv_vis =>
      intro v hv
      rcases (hvisB v).mp hv with hvv | hve
      · rcases inv.inv_vis v hvv with hq' | ⟨hd, hcl⟩
        · rcases List.mem_cons.mp hq' with rfl | hr
          · exact Or.inr ⟨hdeadBp, hedgeB⟩
          · exact Or.inl (List.mem_append.mpr (Or.inr hr))
        · refine Or.inr ⟨?_, fun e he => hmonoB e (hcl e he)⟩
          rcases eq_or_ne v p with rfl | hne
          · exact hdeadBp
          · rw [hdeadB v hne]
            exact hd
      · by_cases hvv : Visited cs t v
        · rcases inv.inv_vis v hvv with hq' | ⟨hd, hcl⟩
          · rcases List.mem_cons.mp hq' with rfl | hr
            · exact Or.inr ⟨hdeadBp, hedgeB⟩
            · exact Or.inl (List.mem_append.mpr (Or.inr hr))
          · refine Or.inr ⟨?_, fun e he => hmonoB e (hcl e he)⟩
            rcases eq_or_ne v p with rfl | hne
            · exact hdeadBp
            · rw [hdeadB v hne]
              exact hd
        · exact Or.inl (List.mem_append.mpr (Or.inl ((hfmem' v).mpr ⟨hvv, hve⟩)))
    case nontrace =>
      exact nonTraceEq_trans (nonTraceEq_trans inv.nontrace h1nt) hnt2
  · have hdec := unvis_decrease univ cs cs2 t fresh
      hmonoB
      (fun c hc => Hedge p c ((hfmem' c).mp hc).2)
      hfnd
      (fun c hc => ((hfmem' c).mp hc).1)
      (fun c hc => (hvisB c).mpr (Or.inr ((hfmem' c).mp hc).2))
    rw [List.length_append]
    simp only [List.length_cons]
    omega
  · intro c hc
    rcases eq_or_ne c p with rfl | hne
    · exact hdeadBp
    · rw [hdeadB c hne]
      exact hc


theorem markAliveLoop_spec (cells0 : Nat → Cell) (univ : List Nat) (t : Nat)
    (Hedge : ∀ c e, e ∈ (cells0 c).edges → e ∈ univ) :
    ∀ (fuel : Nat) (cs : Nat → Cell) (queue : List Nat),
      2 * unvisCount univ cs t + queue.length < fuel →
      AliveInv cells0 t cs queue →
      (∀ v, Visited (markAliveLoop fuel (cs, { queue := queue, perform_count := false, trace_id := t })).1 t v →
        ((markAliveLoop fuel (cs, { queue := queue, perform_count := false, trace_id := t })).1 v).trace.dead = false ∧
        ∀ e, e ∈ (cells0 v).edges →
          Visited (markAliveLoop fuel (cs, { queue := queue, perform_count := false, trace_id := t })).1 t e) ∧
      (∀ q, q ∈ queue →
        ((markAliveLoop fuel (cs, { queue := queue, perform_count := false, trace_id := t })).1 q).trace.dead = false ∧
        ∀ e, e ∈ (cells0 q).edges →
          Visited (markAliveLoop fuel (cs, { queue := queue, perform_count := false, trace_id := t })).1 t e) ∧
      (∀ c, (cs c).trace.dead = false →
        ((markAliveLoop fuel (cs, { queue := queue, perform_count := false, trace_id := t })).1 c).trace.dead = false) ∧
      (∀ c, Visited cs t c →
        Visited (markAliveLoop fuel (cs, { queue := queue, perform_count := false, trace_id := t })).1 t c) ∧
      NonTraceEq cs (markAliveLoop fuel (cs, { queue := queue, perform_count := false, trace_id := t })).1 := by
  intro fuel
  induction fuel with
  | zero =>
    intro cs queue hf _
    omega
  | succ fuel ih =>
    intro cs queue hf inv
    cases queue with
    | nil =>
      rw [markAliveLoop_nil]
      refine ⟨?_, ?_, ?_, ?_, nonTraceEq_rfl cs⟩
      · intro v hv
        rcases inv.inv_vis v hv with hq | h
        · exact absurd hq (List.not_mem_nil v)
        · exact h
      · exact fun q hq => absurd hq (List.not_mem_nil q)
      · exact fun _ h => h
      · exact fun _ h => h
    | cons p rest =>
      have hunfold : markAliveLoop (fuel + 1)
          (cs, { queue := p :: rest, perform_count := false, trace_id := t })
          = markAliveLoop fuel
              (trace_content
                (updCell cs p (fun c => { c with trace := { c.trace with dead := false } }),
                 { queue := rest, perform_count := false, trace_id := t }) p) := rfl
      obtain ⟨cs2, tr2, hpair⟩ : ∃ cs2 tr2,
          trace_content
            (updCell cs p (fun c => { c with trace := { c.trace with dead := false } }),
             { queue := rest, perform_count := false, trace_id := t }) p = (cs2, tr2) :=
        ⟨_, _, rfl⟩
      obtain ⟨fresh, htr, inv2, hdec, hp_dead, hp_edges, hmono_dead, hmono_vis, hnt⟩ :=
        alive_step cells0 univ t Hedge cs p rest cs2 tr2 hpair inv
      rw [hpair, htr] at hunfold
      rw [hunfold]
      have hf2 : 2 * unvisCount univ cs2 t + (fresh ++ rest).length < fuel := by
        simp only [List.length_cons] at hf hdec
        omega
      obtain ⟨g1, g2, g3, g4, g5⟩ := ih cs2 (fresh ++ rest) hf2 inv2
      refine ⟨g1, ?_, ?_, ?_, nonTraceEq_trans hnt g5⟩
      · intro q hq
        rcases List.mem_cons.mp hq with rfl | hr
        · exact ⟨g3 q hp_dead, fun e he => g4 e (hp_edges e he)⟩
        · exact g2 q (List.mem_append.mpr (Or.inr hr))
      · exact fun c hc => g3 c (hmono_dead c hc)
      · exact fun c hc => g4 c (hmono_vis c hc)

/-- Full specification of phase 2 (`find_unreachable_pointers`): every cell
reachable from a seed (a candidate whose tally is below its strong count)
ends with its dead flag cleared, the returned dead list is the candidates
still flagged dead, and no field outside the trace metadata changes. -/
theorem find_unreachable_pointers_spec (s1 : GCState) (pointers : List Nat)
    (hids : ∀ c, (s1.cells c).trace.id ≤ s1.trace_id)
    (hedges : ∀ c e, e ∈ (s1.cells c).edges → e ∈ s1.univ) :
    ∀ q c, q ∈ pointers →
      (s1.cells q).trace.ref_count < (s1.cells q).ref_count →
      Reaches s1.cells q c →
      ((find_unreachable_pointers s1 pointers).2.cells c).trace.dead = false := by
  have hvis0 : ∀ c, ¬ Visited s1.cells (s1.trace_id + 1) c := by
    intro c hv
    have := hids c
    unfold Visited at hv
    omega
  have inv0 : AliveInv s1.cells (s1.trace_id + 1) s1.cells
      (pointers.filter fun p =>
        (s1.cells p).trace.ref_count < (s1.cells p).ref_count) := by
    constructor
    case inv_vis => exact fun v hv => absurd hv (hvis0 v)
    case nontrace => exact nonTraceEq_rfl _
  have hfuel : 2 * unvisCount s1.univ s1.cells (s1.trace_id + 1)
        + (pointers.filter fun p =>
            (s1.cells p).trace.ref_count < (s1.cells p).ref_count).length
      < 2 * s1.univ.length
        + (pointers.filter fun p =>
            (s1.cells p).trace.ref_count < (s1.cells p).ref_count).length + 1 := by
    have := unvisCount_le s1.univ s1.cells (s1.trace_id + 1)
    omega
  obtain ⟨g1, g2, _, _, _⟩ := markAliveLoop_spec s1.cells s1.univ (s1.trace_id + 1)
    hedges
    (2 * s1.univ.length
      + (pointers.filter fun p =>
          (s1.cells p).trace.ref_count < (s1.cells p).ref_count).length + 1)
    s1.cells
    (pointers.filter fun p =>
      (s1.cells p).trace.ref_count < (s1.cells p).ref_count)
    hfuel inv0
  intro q c hq hlt hreach
  have hqf : q ∈ pointers.filter fun p =>
        (s1.cells p).trace.ref_count < (s1.cells p).ref_count := by
    rw [List.mem_filter]
    exact ⟨hq, by simpa using hlt⟩
  have hstrong :
      ((markAliveLoop (2 * s1.univ.length
          + (pointers.filter fun p =>
              (s1.cells p).trace.ref_count < (s1.cells p).ref_count).length + 1)
        (s1.cells,
         { queue := pointers.filter fun p =>
             (s1.cells p).trace.ref_count < (s1.cells p).ref_count,
           perform_count := false, trace_id := s1.trace_id + 1 })).1 c).trace.dead = false ∧
      ∀ e, e ∈ (s1.cells c).edges →
        Visited (markAliveLoop (2 * s1.univ.length
            + (pointers.filter fun p =>
                (s1.cells p).trace.ref_count < (s1.cells p).ref_count).length + 1)
          (s1.cells,
           { queue := pointers.filter fun p =>
               (s1.cells p).trace.ref_count < (s1.cells p).ref_count,
             perform_count := false, trace_id := s1.trace_id + 1 })).1
          (s1.trace_id + 1) e := by
    induction hreach with
    | refl => exact g2 q hqf
    | tail hxm hedge ihh =>
      rename_i x m
      exact g1 m (ihh.2 m hedge)
  exact hstrong.1

/-- The dead list returned by phase 2 is the sublist of candidates whose dead
flag survived the mark-alive flood. -/
theorem find_unreachable_dead_mem (s1 : GCState) (pointers : List Nat) (c : Nat) :
    c ∈ (find_unreachable_pointers s1 pointers).1 ↔
      (c ∈ pointers ∧
        ((find_unreachable_pointers s1 pointers).2.cells c).trace.dead = true) := by
  unfold find_unreachable_pointers
  dsimp only
  rw [List.mem_filter]


/-! ## C1: external keep-alive -/

theorem internalRefs_mono (cells : Nat → Cell) (P univ : List Nat) (c : Nat)
    (hnd : P.Nodup) (hsub : ∀ x, x ∈ P → x ∈ univ) :
    internalRefs cells P c ≤ internalRefs cells univ c := by
  obtain ⟨l2, hperm, hsl⟩ := List.Nodup.subperm hnd (fun x hx => hsub x hx)
  unfold internalRefs
  calc (P.map fun p => ((cells p).edges).count c).sum
      = (l2.map fun p => ((cells p).edges).count c).sum :=
        (List.Perm.sum_eq (List.Perm.map _ hperm)).symm
    _ ≤ (univ.map fun p => ((cells p).edges).count c).sum :=
        List.Sublist.sum_le_sum (List.Sublist.map _ hsl)
          (fun a _ => Nat.zero_le a)

theorem reaches_mem_univ (s : GCState)
    (hedges : ∀ c e, e ∈ (s.cells c).edges → e ∈ s.univ) :
    ∀ e c, Reaches s.cells e c → e ∈ s.univ → c ∈ s.univ := by
  intro e c hreach he
  induction hreach with
  | refl => exact he
  | tail _ hedge ih => exact hedges _ _ hedge

/-- A path from outside a closed set into it crosses an entering edge. -/
theorem path_enters (cells : Nat → Cell) (P : List Nat) :
    ∀ e c, Reaches cells e c → c ∈ P → e ∉ P →
      ∃ x y, Reaches cells e x ∧ x ∉ P ∧ y ∈ P ∧ y ∈ (cells x).edges ∧
        Reaches cells y c := by
  intro e c hreach
  induction hreach with
  | refl => exact fun hc he => absurd hc he
  | tail hxm hedge ih =>
    rename_i x m
    intro hm he
    by_cases hx : x ∈ P
    · obtain ⟨a, b, hea, ha, hb, hab, hreach2⟩ := ih hx he
      exact ⟨a, b, hea, ha, hb, hab, Relation.ReflTransGen.tail hreach2 hedge⟩
    · exact ⟨x, m, hxm, hx, hm, hedge, Relation.ReflTransGen.refl⟩

theorem count_cyclic_mgr_fields (s : GCState) :
    (count_cyclic_references s).2.trace_id = s.trace_id + 1 ∧
    (count_cyclic_references s).2.univ = s.univ ∧
    (count_cyclic_references s).2.dirty_root = none :=
  ⟨rfl, rfl, rfl⟩

theorem find_unreachable_mgr_fields (s : GCState) (pointers : List Nat) :
    (find_unreachable_pointers s pointers).2.trace_id = s.trace_id + 1 ∧
    (find_unreachable_pointers s pointers).2.univ = s.univ ∧
    (find_unreachable_pointers s pointers).2.dirty_root = s.dirty_root :=
  ⟨rfl, rfl, rfl⟩

theorem count_cyclic_edges_eq (s : GCState) (c : Nat) :
    ((count_cyclic_references s).2.cells c).edges = (s.cells c).edges := by
  unfold Cell.edges
  rw [(count_cyclic_value_rc s c).1]

/-- C1: any cell transitively reachable from a surviving external handle is
never collected — `gc()` leaves its value untouched.  The hypotheses say the
heap is well formed: the dirty list drains to the duplicate-free allocated
list `roots`, trace ids are bounded by the manager counter, edges point at
allocated cells, the allocated list is duplicate-free, and each allocated
cell's `ref_count` is the number of heap references to it plus its number
`ext c` of external handles. -/
theorem c1_external_keep_alive (s : GCState) (ext : Nat → Nat) (roots : List Nat)
    (hroots : dirtyListFrom s.cells (s.univ.length + 1) s.dirty_root = roots)
    (hroots_nodup : roots.Nodup)
    (hroots_univ : ∀ c, c ∈ roots → c ∈ s.univ)
    (hids : ∀ c, (s.cells c).trace.id ≤ s.trace_id)
    (hedges : ∀ c e, e ∈ (s.cells c).edges → e ∈ s.univ)
    (hrc : ∀ c, c ∈ s.univ →
      (s.cells c).ref_count = internalRefs s.cells s.univ c + ext c)
    (hext_univ : ∀ c, 0 < ext c → c ∈ s.univ) :
    ∀ e c, 0 < ext e → Reaches s.cells e c →
      ((gc s).cells c).value = (s.cells c).value := by
  obtain ⟨hmem, hcount, hPnodup, hPuniv, _, _, hidsF, hclosed⟩ :=
    count_cyclic_references_spec s roots hroots hroots_nodup hroots_univ hids hedges
  have hids1 : ∀ c, ((count_cyclic_references s).2.cells c).trace.id
      ≤ (count_cyclic_references s).2.trace_id := by
    intro c
    rw [(count_cyclic_mgr_fields s).1]
    exact hidsF c
  have hedges1 : ∀ c e, e ∈ ((count_cyclic_references s).2.cells c).edges →
      e ∈ (count_cyclic_references s).2.univ := by
    intro c e he
    rw [(count_cyclic_mgr_fields s).2.1]
    exact hedges c e ((count_cyclic_edges_eq s c) ▸ he)
  have halive := find_unreachable_pointers_spec (count_cyclic_references s).2
    (count_cyclic_references s).1 hids1 hedges1
  intro e c hext hreach
  -- gc is the clearing fold over the dead list after the two phases
  have hgc : gc s
      = ((find_unreachable_pointers (count_cyclic_references s).2
            (count_cyclic_references s).1).1).reverse.foldl drop_value
          (find_unreachable_pointers (count_cyclic_references s).2
            (count_cyclic_references s).1).2 := rfl
  -- it suffices that c is not selected dead
  have hnotdead : c ∉ (find_unreachable_pointers (count_cyclic_references s).2
      (count_cyclic_references s).1).1 := by
    intro hcdead
    obtain ⟨hcP, hcdeadflag⟩ :=
      (find_unreachable_dead_mem (count_cyclic_references s).2
        (count_cyclic_references s).1 c).mp hcdead
    -- find a phase-2 seed that reaches c
    have hreach1 : ∀ x y, Reaches s.cells x y →
        Reaches (count_cyclic_references s).2.cells x y :=
      fun x y h => reaches_congr (fun c => (count_cyclic_edges_eq s c).symm) h
    have hseed : ∃ q, q ∈ (count_cyclic_references s).1 ∧
        ((count_cyclic_references s).2.cells q).trace.ref_count
          < ((count_cyclic_references s).2.cells q).ref_count ∧
        Reaches s.cells q c := by
      by_cases heP : e ∈ (count_cyclic_references s).1
      · refine ⟨e, heP, ?_, hreach⟩
        rw [hcount e heP, (count_cyclic_value_rc s e).2,
          hrc e (hPuniv e heP)]
        have hmono := internalRefs_mono s.cells (count_cyclic_references s).1
          s.univ e hPnodup hPuniv
        omega
      · obtain ⟨x, y, hex, hxP, hyP, hxy, hyreach⟩ :=
          path_enters s.cells (count_cyclic_references s).1 e c hreach hcP heP
        refine ⟨y, hyP, ?_, hyreach⟩
        rw [hcount y hyP, (count_cyclic_value_rc s y).2,
          hrc y (hPuniv y hyP)]
        have hxu : x ∈ s.univ :=
          reaches_mem_univ s hedges e x hex (hext_univ e hext)
        have hmono := internalRefs_mono s.cells
          (x :: (count_cyclic_references s).1) s.univ y
          (List.nodup_cons.mpr ⟨hxP, hPnodup⟩)
          (by
            intro z hz
            rcases List.mem_cons.mp hz with rfl | hz
            · exact hxu
            · exact hPuniv z hz)
        rw [internalRefs_cons] at hmono
        have hone : 0 < ((s.cells x).edges).count y := List.count_pos_iff.mpr hxy
        omega
    obtain ⟨q, hqP, hqlt, hqreach⟩ := hseed
    have := halive q c hqP hqlt (hreach1 q c hqreach)
    rw [this] at hcdeadflag
    exact Bool.false_ne_true hcdeadflag
  rw [hgc, foldl_drop_value_not_mem _ _ c (by
      rw [List.mem_reverse]
      exact hnotdead)]
  rw [(find_unreachable_nonTraceEq (count_cyclic_references s).2
      (count_cyclic_references s).1 c).1,
    (count_cyclic_value_rc s c).1]


/-- C1 witness: on `sCyc`, cell 3 is a surviving external handle and reaches
cell 2 through 3 → 1 → 2; `gc()` leaves cell 2's value untouched (the whole
dirty cycle is kept alive by the external handle). -/
theorem c1_external_keep_alive_witness :
    ((gc sCyc).cells 2).value = (sCyc.cells 2).value :=
  c1_external_keep_alive sCyc (fun c => if c = 3 then 1 else 0) [1, 2]
    (by decide) (by decide) (by decide) sCyc_ids sCyc_edges
    (by decide)
    (by
      intro c hc
      dsimp only at hc
      rcases eq_or_ne c 3 with rfl | hne
      · decide
      · rw [if_neg hne] at hc
        exact absurd hc (by omega))
    3 2 (by decide)
    (Relation.ReflTransGen.tail
      (Relation.ReflTransGen.single (show (1 : Nat) ∈ (sCyc.cells 3).edges by decide))
      (show (2 : Nat) ∈ (sCyc.cells 1).edges by decide))


/-! ## C8: ordering of the phases inside one gc() call -/

/-- The observable steps of a `gc()` call, in the order `GCManager::gc`
performs them (gc_manager.rs lines 28-37). -/
inductive GCEvent where
  | phase1Done
  | phase2Done
  | releaseInner
  | clear (p : Nat)
  | gcReturn
deriving DecidableEq, Repr

/-- `GCManager::gc` instrumented with its event trace: phase 1, phase 2,
`drop(inner)` releasing the manager borrow, then one clear per dead pointer
in vector order, then the return. -/
def gcWithEvents (s : GCState) : GCState × List GCEvent :=
  let out1 := count_cyclic_references s
  let out2 := find_unreachable_pointers out1.2 out1.1
  let cleared := out2.1.reverse.foldl
    (fun acc p => (drop_value acc.1 p, acc.2 ++ [GCEvent.clear p])) (out2.2, [])
  (cleared.1,
   GCEvent.phase1Done :: GCEvent.phase2Done :: GCEvent.releaseInner ::
     (cleared.2 ++ [GCEvent.gcReturn]))

theorem foldl_clear_events (l : List Nat) :
    ∀ (st : GCState × List GCEvent),
      (l.foldl (fun acc p => (drop_value acc.1 p, acc.2 ++ [GCEvent.clear p])) st).2
        = st.2 ++ l.map GCEvent.clear ∧
      (l.foldl (fun acc p => (drop_value acc.1 p, acc.2 ++ [GCEvent.clear p])) st).1
        = l.foldl drop_value st.1 := by
  induction l with
  | nil => exact fun st => ⟨(List.append_nil st.2).symm, rfl⟩
  | cons e l ih =>
    intro st
    obtain ⟨h1, h2⟩ := ih (drop_value st.1 e, st.2 ++ [GCEvent.clear e])
    constructor
    · rw [List.foldl_cons, h1, List.map_cons, List.append_assoc,
        List.singleton_append]
    · rw [List.foldl_cons, h2]
      rfl

theorem foldl_drop_value_all_none (l : List Nat) :
    ∀ (s : GCState) (c : Nat), c ∈ l →
      ((l.foldl drop_value s).cells c).value = none := by
  induction l with
  | nil => exact fun _ c hc => absurd hc (List.not_mem_nil c)
  | cons e l ih =>
    intro s c hc
    rcases List.mem_cons.mp hc with rfl | hc
    · exact foldl_drop_value_none_mono l (drop_value s c) c (drop_value_self_none s c)
    · exact ih (drop_value s e) c hc

/-- C8: within one `gc()` call phase 1 runs to completion before phase 2
starts (phase 2 consumes phase 1's output state and candidate list), phase 2
completes before any value is cleared, the manager's mutable state is
released before the clears (and hence before any user destructor), every
cell of the dead set `D` has its clear event strictly between the release
and the return, and every value of `D` really is empty in the state `gc()`
returns. -/
theorem c8_gc_phase_ordering (s : GCState) :
    (gcWithEvents s).1 = gc s ∧
    (gcWithEvents s).2
      = GCEvent.phase1Done :: GCEvent.phase2Done :: GCEvent.releaseInner ::
          (((deadSet s).reverse.map GCEvent.clear) ++ [GCEvent.gcReturn]) ∧
    (∀ c, GCEvent.clear c ∈ (gcWithEvents s).2 ↔ c ∈ deadSet s) ∧
    (∀ c, c ∈ deadSet s → ((gc s).cells c).value = none) := by
  obtain ⟨hev, hst⟩ := foldl_clear_events ((deadSet s).reverse)
    ((find_unreachable_pointers (count_cyclic_references s).2
        (count_cyclic_references s).1).2, [])
  have h1 : (gcWithEvents s).1 = gc s := by
    show ((deadSet s).reverse.foldl
        (fun acc p => (drop_value acc.1 p, acc.2 ++ [GCEvent.clear p]))
        ((find_unreachable_pointers (count_cyclic_references s).2
            (count_cyclic_references s).1).2, [])).1 = gc s
    rw [hst]
    rfl
  have h2 : (gcWithEvents s).2
      = GCEvent.phase1Done :: GCEvent.phase2Done :: GCEvent.releaseInner ::
          (((deadSet s).reverse.map GCEvent.clear) ++ [GCEvent.gcReturn]) := by
    show GCEvent.phase1Done :: GCEvent.phase2Done :: GCEvent.releaseInner ::
        (((deadSet s).reverse.foldl
            (fun acc p => (drop_value acc.1 p, acc.2 ++ [GCEvent.clear p]))
            ((find_unreachable_pointers (count_cyclic_references s).2
                (count_cyclic_references s).1).2, [])).2 ++ [GCEvent.gcReturn]) = _
    rw [hev]
    rfl
  refine ⟨h1, h2, ?_, ?_⟩
  · intro c
    rw [h2]
    simp [List.mem_map]
  · intro c hc
    show ((gc s).cells c).value = none
    have : gc s = ((find_unreachable_pointers (count_cyclic_references s).2
        (count_cyclic_references s).1).1).reverse.foldl drop_value
          (find_unreachable_pointers (count_cyclic_references s).2
            (count_cyclic_references s).1).2 := rfl
    rw [this]
    exact foldl_drop_value_all_none _ _ c (List.mem_reverse.mpr hc)


/-! ## The dirty list as a doubly linked chain (for C7) -/

/-- `Chain cells prev cur l`: starting at the pointer `cur`, following
`next_dirty` visits exactly the cells of `l`, with `prev_dirty` back-links
consistent, entering with back-link `prev`, and ending at `none`. -/
def Chain (cells : Nat → Cell) : Option Nat → Option Nat → List Nat → Prop
  | _, cur, [] => cur = none
  | prev, cur, c :: l =>
      cur = some c ∧ (cells c).prev_dirty = prev ∧
        Chain cells (some c) ((cells c).next_dirty) l

/-- The dirty-list representation invariant: the manager's `dirty_root`
chains exactly through `l`, `l` is duplicate-free and allocated, unlisted
cells have cleared links, and `is_dirty` marks exactly the members. -/
def DListRep (s : GCState) (l : List Nat) : Prop :=
  Chain s.cells none s.dirty_root l ∧ l.Nodup ∧
  (∀ c, c ∈ l → c ∈ s.univ) ∧
  (∀ c, (s.cells c).is_dirty = false →
    (s.cells c).prev_dirty = none ∧ (s.cells c).next_dirty = none) ∧
  (∀ c, (s.cells c).is_dirty = true ↔ c ∈ l)

theorem chain_congr (cells cells' : Nat → Cell) :
    ∀ (l : List Nat) (prev cur : Option Nat),
      (∀ c, c ∈ l → (cells' c).prev_dirty = (cells c).prev_dirty ∧
        (cells' c).next_dirty = (cells c).next_dirty) →
      Chain cells prev cur l → Chain cells' prev cur l := by
  intro l
  induction l with
  | nil => exact fun _ _ _ h => h
  | cons c l ih =>
    intro prev cur hagree ⟨h1, h2, h3⟩
    obtain ⟨hp, hn⟩ := hagree c (List.mem_cons_self c l)
    refine ⟨h1, hp.trans h2, hn ▸ ?_⟩
    exact ih (some c) ((cells c).next_dirty)
      (fun d hd => hagree d (List.mem_cons_of_mem c hd)) h3

theorem chain_none_inv (cells : Nat → Cell) (prev : Option Nat) (l : List Nat)
    (h : Chain cells prev none l) : l = [] := by
  cases l with
  | nil => rfl
  | cons c l => exact absurd h.1 (by simp)

theorem chain_cons_inv (cells : Nat → Cell) (prev : Option Nat) (x : Nat)
    (l : List Nat) (h : Chain cells prev (some x) l) :
    ∃ l2, l = x :: l2 ∧ (cells x).prev_dirty = prev ∧
      Chain cells (some x) ((cells x).next_dirty) l2 := by
  cases l with
  | nil => exact absurd h (by simp [Chain])
  | cons c l =>
    obtain ⟨h1, h2, h3⟩ := h
    obtain rfl : x = c := by injection h1
    exact ⟨l, rfl, h2, h3⟩

theorem chain_next_mem (cells : Nat → Cell) :
    ∀ (l : List Nat) (prev cur : Option Nat), Chain cells prev cur l →
      ∀ x, x ∈ l → ∀ q, (cells x).next_dirty = some q → q ∈ l := by
  intro l
  induction l with
  | nil => exact fun _ _ _ x hx => absurd hx (List.not_mem_nil x)
  | cons c l ih =>
    rintro prev cur ⟨h1, h2, h3⟩ x hx q hq
    rcases List.mem_cons.mp hx with rfl | hx
    · rw [hq] at h3
      obtain ⟨l2, rfl, _, _⟩ := chain_cons_inv cells (some x) q l h3
      exact List.mem_cons_of_mem x (List.mem_cons_self q l2)
    · exact List.mem_cons_of_mem c (ih (some c) ((cells c).next_dirty) h3 x hx q hq)

theorem chain_prev_mem (cells : Nat → Cell) :
    ∀ (l : List Nat) (prev cur : Option Nat), Chain cells prev cur l →
      ∀ x, x ∈ l → ∀ q, (cells x).prev_dirty = some q → prev = some q ∨ q ∈ l := by
  intro l
  induction l with
  | nil => exact fun _ _ _ x hx => absurd hx (List.not_mem_nil x)
  | cons c l ih =>
    rintro prev cur ⟨h1, h2, h3⟩ x hx q hq
    rcases List.mem_cons.mp hx with rfl | hx
    · rw [hq] at h2
      exact Or.inl h2.symm
    · rcases ih (some c) ((cells c).next_dirty) h3 x hx q hq with h | h
      · obtain rfl : c = q := by injection h
        exact Or.inr (List.mem_cons_self c l)
      · exact Or.inr (List.mem_cons_of_mem c h)

theorem chain_dirtyListFrom (cells : Nat → Cell) :
    ∀ (l : List Nat) (prev cur : Option Nat) (fuel : Nat),
      Chain cells prev cur l → l.length ≤ fuel →
      dirtyListFrom cells fuel cur = l := by
  intro l
  induction l with
  | nil =>
    intro prev cur fuel h _
    rw [h]
    cases fuel <;> rfl
  | cons c l ih =>
    intro prev cur fuel ⟨h1, _, h3⟩ hlen
    rw [h1]
    cases fuel with
    | zero => exact absurd hlen (by simp)
    | succ fuel =>
      show c :: dirtyListFrom cells fuel ((cells c).next_dirty) = c :: l
      rw [ih (some c) ((cells c).next_dirty) fuel h3
        (by simp only [List.length_cons] at hlen; omega)]

theorem nodup_length_le (l u : List Nat) (hnd : l.Nodup)
    (hsub : ∀ x, x ∈ l → x ∈ u) : l.length ≤ u.length :=
  List.Subperm.length_le (List.Nodup.subperm hnd (fun x hx => hsub x hx))

theorem dlistRep_drain (s : GCState) (l : List Nat) (hrep : DListRep s l) :
    dirtyListFrom s.cells (s.univ.length + 1) s.dirty_root = l := by
  obtain ⟨hchain, hnd, hsub, _, _⟩ := hrep
  exact chain_dirtyListFrom s.cells l none s.dirty_root (s.univ.length + 1) hchain
    (Nat.le_succ_of_le (nodup_length_le l s.univ hnd hsub))


theorem mark_dirty_rep (s : GCState) (p : Nat) (l : List Nat)
    (hrep : DListRep s l) (hp : (s.cells p).is_dirty = false) (hpu : p ∈ s.univ) :
    DListRep (mark_dirty s p) (p :: l) := by
  obtain ⟨hchain, hnd, hsub, hlinks, hdirty⟩ := hrep
  have hpl : p ∉ l := by
    intro h
    have := (hdirty p).mpr h
    rw [hp] at this
    exact Bool.false_ne_true this
  obtain ⟨hpprev, hpnext⟩ := hlinks p hp
  cases hroot : s.dirty_root with
  | none =>
    have hl0 : l = [] := chain_none_inv _ _ _ (hroot ▸ hchain)
    subst hl0
    unfold mark_dirty
    rw [hroot]
    dsimp only
    have hq : ∀ q, q ≠ p →
        (updateCell s p (fun c => { c with is_dirty := true })).cells q = s.cells q := by
      intro q hqp
      rw [updateCell_cells, if_neg hqp]
    have hpc : (updateCell s p (fun c => { c with is_dirty := true })).cells p
        = { s.cells p with is_dirty := true } := by
      rw [updateCell_cells, if_pos rfl]
    refine ⟨⟨rfl, ?_, ?_⟩, List.nodup_singleton p, ?_, ?_, ?_⟩
    · show (_ : Cell).prev_dirty = none
      rw [hpc]
      exact hpprev
    · show Chain _ (some p) (_ : Cell).next_dirty []
      rw [hpc]
      show (s.cells p).next_dirty = none
      exact hpnext
    · intro c hc
      rw [List.mem_singleton] at hc
      exact hc ▸ hpu
    · intro c hc
      rcases eq_or_ne c p with rfl | hcp
      · rw [hpc] at hc
        exact absurd hc (by simp)
      · rw [hq c hcp] at hc ⊢
        exact hlinks c hc
    · intro c
      rcases eq_or_ne c p with rfl | hcp
      · rw [hpc]
        simp
      · rw [hq c hcp, List.mem_singleton]
        constructor
        · intro hd
          exact absurd ((hdirty c).mp hd) (List.not_mem_nil c)
        · intro hd
          exact absurd hd hcp
  | some nx =>
    rw [hroot] at hchain
    obtain ⟨l2, rfl, hnxprev, hnxchain⟩ := chain_cons_inv s.cells none nx l hchain
    have hpnx : p ≠ nx := fun h => hpl (h ▸ List.mem_cons_self nx l2)
    have hnxl2 : nx ∉ l2 := (List.nodup_cons.mp hnd).1
    unfold mark_dirty
    rw [hroot]
    dsimp only
    have hcq : ∀ q, q ≠ p → q ≠ nx →
        (updateCell (updateCell s nx (fun c => { c with prev_dirty := some p })) p
          (fun c => { c with next_dirty := some nx, is_dirty := true })).cells q
          = s.cells q := by
      intro q h1 h2
      rw [updateCell_cells, if_neg h1, updateCell_cells, if_neg h2]
    have hcp : (updateCell (updateCell s nx (fun c => { c with prev_dirty := some p })) p
          (fun c => { c with next_dirty := some nx, is_dirty := true })).cells p
        = { s.cells p with next_dirty := some nx, is_dirty := true } := by
      rw [updateCell_cells, if_pos rfl, updateCell_cells, if_neg hpnx]
    have hcnx : (updateCell (updateCell s nx (fun c => { c with prev_dirty := some p })) p
          (fun c => { c with next_dirty := some nx, is_dirty := true })).cells nx
        = { s.cells nx with prev_dirty := some p } := by
      rw [updateCell_cells, if_neg (Ne.symm hpnx), updateCell_cells, if_pos rfl]
    refine ⟨⟨rfl, ?_, ?_⟩, ?_, ?_, ?_, ?_⟩
    · show (_ : Cell).prev_dirty = none
      rw [hcp]
      exact hpprev
    · show Chain _ (some p) (_ : Cell).next_dirty (nx :: l2)
      rw [hcp]
      show Chain _ (some p) (some nx) (nx :: l2)
      refine ⟨rfl, ?_, ?_⟩
      · show (_ : Cell).prev_dirty = some p
        rw [hcnx]
      · show Chain _ (some nx) (_ : Cell).next_dirty l2
        rw [hcnx]
        show Chain _ (some nx) (s.cells nx).next_dirty l2
        refine chain_congr s.cells _ l2 (some nx) ((s.cells nx).next_dirty) ?_ hnxchain
        intro d hd
        have hd1 : d ≠ p := fun h => hpl (h ▸ List.mem_cons_of_mem nx hd)
        have hd2 : d ≠ nx := fun h => hnxl2 (h ▸ hd)
        rw [hcq d hd1 hd2]
        exact ⟨rfl, rfl⟩
    · exact List.nodup_cons.mpr ⟨hpl, hnd⟩
    · intro c hc
      rcases List.mem_cons.mp hc with rfl | hc
      · exact hpu
      · exact hsub c hc
    · intro c hc
      rcases eq_or_ne c p with rfl | h1
      · rw [hcp] at hc
        exact absurd hc (by simp)
      rcases eq_or_ne c nx with rfl | h2
      · rw [hcnx] at hc
        have : (s.cells c).is_dirty = true := (hdirty c).mpr (List.mem_cons_self c l2)
        simp only at hc
        rw [this] at hc
        exact absurd hc (by simp)
      · rw [hcq c h1 h2] at hc ⊢
        exact hlinks c hc
    · intro c
      rcases eq_or_ne c p with rfl | h1
      · rw [hcp]
        simp
      rcases eq_or_ne c nx with rfl | h2
      · rw [hcnx]
        show (s.cells c).is_dirty = true ↔ _
        rw [(hdirty c)]
        simp [List.mem_cons_of_mem p (List.mem_cons_self c l2),
          List.mem_cons_self c l2]
      · rw [hcq c h1 h2, hdirty c]
        simp [h1, List.mem_cons]


theorem chain_suffix (cells : Nat → Cell) (p : Nat) (l2 : List Nat) :
    ∀ (l1 : List Nat) (prev cur : Option Nat),
      Chain cells prev cur (l1 ++ p :: l2) →
      Chain cells (some p) ((cells p).next_dirty) l2 := by
  intro l1
  induction l1 with
  | nil => exact fun prev cur h => h.2.2
  | cons a l1 ih =>
    intro prev cur h
    exact ih (some a) ((cells a).next_dirty) h.2.2

theorem chain_next_head (cells : Nat → Cell) (p : Nat) (l2 : List Nat)
    (h : Chain cells (some p) ((cells p).next_dirty) l2) :
    (cells p).next_dirty = l2.head? := by
  cases l2 with
  | nil => exact h
  | cons q t => exact h.1

theorem chain_prev_split (cells : Nat → Cell) (p : Nat) (l2 : List Nat) :
    ∀ (l1 : List Nat) (prev cur : Option Nat),
      Chain cells prev cur (l1 ++ p :: l2) →
      ((l1 = [] ∧ (cells p).prev_dirty = prev) ∨
       (∃ w, w ∈ l1 ∧ l1.getLast? = some w ∧ (cells p).prev_dirty = some w)) := by
  intro l1
  induction l1 with
  | nil => exact fun prev cur h => Or.inl ⟨rfl, h.2.1⟩
  | cons a l1 ih =>
    intro prev cur h
    rcases ih (some a) ((cells a).next_dirty) h.2.2 with ⟨rfl, hp⟩ | ⟨w, hw, hlast, hp⟩
    · exact Or.inr ⟨a, List.mem_singleton.mpr rfl, rfl, hp⟩
    · refine Or.inr ⟨w, List.mem_cons_of_mem a hw, ?_, hp⟩
      cases l1 with
      | nil => exact absurd hw (List.not_mem_nil w)
      | cons b t => rw [List.getLast?_cons_cons]; exact hlast

theorem chain_relink_head (cells cells' : Nat → Cell) (np : Option Nat)
    (l2 : List Nat) (oldprev nxt : Option Nat)
    (hch : Chain cells oldprev nxt l2)
    (hhead : ∀ q, l2.head? = some q → (cells' q).prev_dirty = np ∧
        (cells' q).next_dirty = (cells q).next_dirty)
    (hrest : ∀ q, q ∈ l2 → l2.head? ≠ some q →
        (cells' q).prev_dirty = (cells q).prev_dirty ∧
        (cells' q).next_dirty = (cells q).next_dirty)
    (hnd : l2.Nodup) :
    Chain cells' np nxt l2 := by
  cases l2 with
  | nil => exact hch
  | cons q t =>
    obtain ⟨h1, _, h3⟩ := hch
    obtain ⟨hqp, hqn⟩ := hhead q rfl
    refine ⟨h1, hqp, ?_⟩
    rw [hqn]
    refine chain_congr cells cells' t (some q) ((cells q).next_dirty) ?_ h3
    intro d hd
    refine hrest d (List.mem_cons_of_mem q hd) ?_
    intro hh
    obtain rfl : q = d := by injection hh
    exact (List.nodup_cons.mp hnd).1 hd

theorem chain_unlink (cells cells' : Nat → Cell) (p : Nat) (l2 : List Nat)
    (hp_l2 : p ∉ l2) (hnd2 : l2.Nodup)
    (hlast : ∀ q, (cells p).prev_dirty = some q →
        (cells' q).prev_dirty = (cells q).prev_dirty ∧
        (cells' q).next_dirty = (cells p).next_dirty)
    (hhead : ∀ q, (cells p).next_dirty = some q →
        (cells' q).prev_dirty = (cells p).prev_dirty ∧
        (cells' q).next_dirty = (cells q).next_dirty)
    (hother : ∀ q, q ≠ p → (cells p).prev_dirty ≠ some q →
        (cells p).next_dirty ≠ some q →
        (cells' q).prev_dirty = (cells q).prev_dirty ∧
        (cells' q).next_dirty = (cells q).next_dirty) :
    ∀ (l1 : List Nat) (prev cur : Option Nat),
      Chain cells prev cur (l1 ++ p :: l2) →
      (l1 ++ p :: l2).Nodup →
      (∀ q, prev = some q → q ∉ p :: l2) →
      Chain cells' prev
        (if l1 = [] then (cells p).next_dirty else cur) (l1 ++ l2) := by
  intro l1
  induction l1 with
  | nil =>
    intro prev cur hch hnd hprev
    obtain ⟨h1, h2, h3⟩ := hch
    rw [if_pos rfl]
    show Chain cells' prev (cells p).next_dirty l2
    refine chain_relink_head cells cells' prev l2 (some p) ((cells p).next_dirty)
      h3 ?_ ?_ hnd2
    · intro q hq
      have hnq : (cells p).next_dirty = some q := by
        rw [chain_next_head cells p l2 h3]
        exact hq
      obtain ⟨e1, e2⟩ := hhead q hnq
      rw [h2] at e1
      exact ⟨e1, e2⟩
    · intro q hql2 hqhead
      refine hother q (fun h => hp_l2 (h ▸ hql2)) ?_ ?_
      · rw [h2]
        intro h
        exact hprev q h (List.mem_cons_of_mem p hql2)
      · rw [chain_next_head cells p l2 h3]
        intro h
        exact hqhead (h.symm ▸ rfl)
  | cons a l1 ih =>
    intro prev cur hch hnd hprev
    obtain ⟨h1, h2, h3⟩ := hch
    rw [if_neg (List.cons_ne_nil a l1)]
    have hnd3 := hnd
    rw [List.cons_append, List.nodup_cons] at hnd3
    obtain ⟨hanotin, hndrest⟩ := hnd3
    have hap : a ≠ p := fun h => hanotin (by
      rw [h]; exact List.mem_append.mpr (Or.inr (List.mem_cons_self p l2)))
    have hsuf := chain_suffix cells p l2 l1 (some a) ((cells a).next_dirty) h3
    have hnexthead := chain_next_head cells p l2 hsuf
    have hnext_ne_a : (cells p).next_dirty ≠ some a := by
      rw [hnexthead]
      intro h
      cases l2 with
      | nil => exact Option.noConfusion h
      | cons q t =>
        obtain rfl : q = a := by injection h
        exact hanotin (List.mem_append.mpr (Or.inr (List.mem_cons_of_mem p
          (List.mem_cons_self q t))))
    cases hl1 : l1 with
    | nil =>
      subst hl1
      obtain ⟨h31, h32, h33⟩ := h3
      -- a is the cell just before p
      obtain ⟨e1, e2⟩ := hlast a h32
      refine ⟨h1, e1.trans h2, ?_⟩
      rw [e2]
      refine chain_relink_head cells cells' (some a) l2 (some p)
        ((cells p).next_dirty) h33 ?_ ?_ hnd2
      · intro q hq
        have hnq : (cells p).next_dirty = some q := by
          rw [hnexthead]
          exact hq
        obtain ⟨f1, f2⟩ := hhead q hnq
        rw [h32] at f1
        exact ⟨f1, f2⟩
      · intro q hql2 hqhead
        refine hother q (fun h => hp_l2 (h ▸ hql2)) ?_ ?_
        · rw [h32]
          intro h
          obtain rfl : a = q := by injection h
          exact hanotin (List.mem_append.mpr (Or.inr (List.mem_cons_of_mem p hql2)))
        · rw [hnexthead]
          intro h
          exact hqhead (h.symm ▸ rfl)
    | cons b l1t =>
      subst hl1
      -- a is strictly before the cell preceding p: a's cell is untouched
      have hprevp := chain_prev_split cells p l2 (b :: l1t) (some a)
        ((cells a).next_dirty) h3
      rcases hprevp with ⟨habs, _⟩ | ⟨w, hw, _, hpw⟩
      · exact absurd habs (List.cons_ne_nil b l1t)
      have hprev_ne_a : (cells p).prev_dirty ≠ some a := by
        rw [hpw]
        intro h
        obtain rfl : w = a := by injection h
        exact hanotin (List.mem_append.mpr (Or.inl hw))
      obtain ⟨e1, e2⟩ := hother a hap hprev_ne_a hnext_ne_a
      refine ⟨h1, e1.trans h2, ?_⟩
      rw [e2]
      have := ih (some a) ((cells a).next_dirty) h3 hndrest
        (fun q hq => by
          obtain rfl : a = q := by injection hq
          exact fun hmem => hanotin (List.mem_append.mpr (Or.inr hmem)))
      rw [if_neg (List.cons_ne_nil b l1t)] at this
      exact this


theorem unmark_dirty_char (s : GCState) (p : Nat)
    (hp1 : (s.cells p).prev_dirty ≠ some p)
    (hp2 : (s.cells p).next_dirty ≠ some p)
    (hp3 : ∀ q, (s.cells p).prev_dirty = some q → (s.cells p).next_dirty ≠ some q) :
    (((unmark_dirty s p).cells p).prev_dirty = none ∧
     ((unmark_dirty s p).cells p).next_dirty = none ∧
     ((unmark_dirty s p).cells p).is_dirty = false) ∧
    (∀ q, (s.cells p).prev_dirty = some q →
      ((unmark_dirty s p).cells q).prev_dirty = (s.cells q).prev_dirty ∧
      ((unmark_dirty s p).cells q).next_dirty = (s.cells p).next_dirty ∧
      ((unmark_dirty s p).cells q).is_dirty = (s.cells q).is_dirty) ∧
    (∀ q, (s.cells p).next_dirty = some q →
      ((unmark_dirty s p).cells q).prev_dirty = (s.cells p).prev_dirty ∧
      ((unmark_dirty s p).cells q).next_dirty = (s.cells q).next_dirty ∧
      ((unmark_dirty s p).cells q).is_dirty = (s.cells q).is_dirty) ∧
    (∀ q, q ≠ p → (s.cells p).prev_dirty ≠ some q →
      (s.cells p).next_dirty ≠ some q →
      (unmark_dirty s p).cells q = s.cells q) ∧
    ((unmark_dirty s p).dirty_root =
      (if (s.cells p).prev_dirty = none then (s.cells p).next_dirty
       else s.dirty_root)) := by
  rcases hpv : (s.cells p).prev_dirty with _ | w <;>
    rcases hnx : (s.cells p).next_dirty with _ | x
  · unfold unmark_dirty
    rw [hpv, hnx]
    dsimp only
    refine ⟨?_, ?_, ?_, ?_, ?_⟩
    · simp [updateCell_cells]
    · intro q hq
      exact absurd hq (by simp)
    · intro q hq
      exact absurd hq (by simp)
    · intro q hqp _ _
      simp [updateCell_cells, hqp]
    · simp [updateCell]
  · have hxp : x ≠ p := fun h => hp2 (h ▸ hnx)
    unfold unmark_dirty
    rw [hpv, hnx]
    dsimp only
    refine ⟨?_, ?_, ?_, ?_, ?_⟩
    · simp [updateCell_cells, hxp.symm]
    · intro q hq
      exact absurd hq (by simp)
    · intro q hq
      obtain rfl : x = q := by injection hq
      simp [updateCell_cells, hxp]
    · intro q hqp _ hqx
      have hqx2 : q ≠ x := fun h => hqx (by rw [h])
      simp [updateCell_cells, hqp, hqx2]
    · simp [updateCell]
  · have hwp : w ≠ p := fun h => hp1 (h ▸ hpv)
    unfold unmark_dirty
    rw [hpv, hnx]
    dsimp only
    refine ⟨?_, ?_, ?_, ?_, ?_⟩
    · simp [updateCell_cells, hwp.symm]
    · intro q hq
      obtain rfl : w = q := by injection hq
      simp [updateCell_cells, hwp]
    · intro q hq
      exact absurd hq (by simp)
    · intro q hqp hqw _
      have hqw2 : q ≠ w := fun h => hqw (by rw [h])
      simp [updateCell_cells, hqp, hqw2]
    · simp [updateCell]
  · have hwp : w ≠ p := fun h => hp1 (h ▸ hpv)
    have hxp : x ≠ p := fun h => hp2 (h ▸ hnx)
    have hxw : x ≠ w := fun h => hp3 w hpv (h ▸ hnx)
    unfold unmark_dirty
    rw [hpv, hnx]
    dsimp only
    refine ⟨?_, ?_, ?_, ?_, ?_⟩
    · simp [updateCell_cells, hwp.symm, hxp.symm]
    · intro q hq
      obtain rfl : w = q := by injection hq
      simp [updateCell_cells, hwp, hxw, hxw.symm]
    · intro q hq
      obtain rfl : x = q := by injection hq
      simp [updateCell_cells, hxp, hxw, hxw.symm]
    · intro q hqp hqw hqx
      have hqw2 : q ≠ w := fun h => hqw (by rw [h])
      have hqx2 : q ≠ x := fun h => hqx (by rw [h])
      simp [updateCell_cells, hqp, hqw2, hqx2]
    · simp [updateCell]


theorem unmark_dirty_rep (s : GCState) (p : Nat) (l : List Nat)
    (hrep : DListRep s l) (hp : (s.cells p).is_dirty = true) :
    DListRep (unmark_dirty s p) (l.erase p) := by
  obtain ⟨hchain, hnd, hsub, hlinks, hdirty⟩ := hrep
  have hpl : p ∈ l := (hdirty p).mp hp
  obtain ⟨l1, l2, rfl⟩ := List.append_of_mem hpl
  obtain ⟨hnd1, hndc, hdisj⟩ := List.nodup_append.mp hnd
  obtain ⟨hp_l2, hnd2⟩ := List.nodup_cons.mp hndc
  have hpl1 : p ∉ l1 := fun h => hdisj h (List.mem_cons_self p l2)
  have herase : (l1 ++ p :: l2).erase p = l1 ++ l2 := by
    rw [List.erase_append_right (p :: l2) hpl1, List.erase_cons_head]
  have hsplit := chain_prev_split s.cells p l2 l1 none s.dirty_root hchain
  have hsufchain := chain_suffix s.cells p l2 l1 none s.dirty_root hchain
  have hnexthead := chain_next_head s.cells p l2 hsufchain
  have hprev_tgt_mem : ∀ q, (s.cells p).prev_dirty = some q → q ∈ l1 := by
    intro q hq
    rcases hsplit with ⟨_, hpn⟩ | ⟨w, hw, _, hpw⟩
    · rw [hpn] at hq
      exact absurd hq (by simp)
    · rw [hpw] at hq
      obtain rfl : w = q := by injection hq
      exact hw
  have hnext_tgt_mem : ∀ q, (s.cells p).next_dirty = some q → q ∈ l2 := by
    intro q hq
    rw [hnexthead] at hq
    cases l2 with
    | nil => exact absurd hq (by simp)
    | cons b t =>
      obtain rfl : b = q := by injection hq
      exact List.mem_cons_self b t
  have hp1 : (s.cells p).prev_dirty ≠ some p :=
    fun h => hpl1 (hprev_tgt_mem p h)
  have hp2 : (s.cells p).next_dirty ≠ some p :=
    fun h => hp_l2 (hnext_tgt_mem p h)
  have hp3 : ∀ q, (s.cells p).prev_dirty = some q →
      (s.cells p).next_dirty ≠ some q :=
    fun q hq hnq => hdisj (hprev_tgt_mem q hq)
      (List.mem_cons_of_mem p (hnext_tgt_mem q hnq))
  obtain ⟨hcp, hclast, hchead, hcother, hroot⟩ := unmark_dirty_char s p hp1 hp2 hp3
  have hdirty_pres : ∀ c, c ≠ p →
      ((unmark_dirty s p).cells c).is_dirty = (s.cells c).is_dirty := by
    intro c hcp'
    by_cases h1 : (s.cells p).prev_dirty = some c
    · exact (hclast c h1).2.2
    by_cases h2 : (s.cells p).next_dirty = some c
    · exact (hchead c h2).2.2
    · rw [hcother c hcp' h1 h2]
  have hchain' := chain_unlink s.cells (unmark_dirty s p).cells p l2 hp_l2 hnd2
    (fun q hq => ⟨(hclast q hq).1, (hclast q hq).2.1⟩)
    (fun q hq => ⟨(hchead q hq).1, (hchead q hq).2.1⟩)
    (fun q hqp hqw hqx => by rw [hcother q hqp hqw hqx]; exact ⟨rfl, rfl⟩)
    l1 none s.dirty_root hchain hnd (fun q hq => absurd hq (by simp))
  have hroot' : (unmark_dirty s p).dirty_root =
      (if l1 = [] then (s.cells p).next_dirty else s.dirty_root) := by
    rw [hroot]
    rcases hsplit with ⟨rfl, hpn⟩ | ⟨w, hw, _, hpw⟩
    · rw [hpn, if_pos rfl, if_pos rfl]
    · rw [hpw, if_neg (by simp), if_neg (List.ne_nil_of_mem hw)]
  rw [herase]
  refine ⟨?_, ?_, ?_, ?_, ?_⟩
  · rw [hroot']
    exact hchain'
  · exact List.Nodup.sublist
      (List.Sublist.append_left (List.sublist_cons_self p l2) l1) hnd
  · intro c hc
    rw [(unmark_dirty_univ s p).1]
    rcases List.mem_append.mp hc with h | h
    · exact hsub c (List.mem_append.mpr (Or.inl h))
    · exact hsub c (List.mem_append.mpr (Or.inr (List.mem_cons_of_mem p h)))
  · intro c hcf
    by_cases hcp' : c = p
    · subst hcp'
      exact ⟨hcp.1, hcp.2.1⟩
    · rw [hdirty_pres c hcp'] at hcf
      have hcl : c ∉ (l1 ++ p :: l2) := fun hm => by
        rw [(hdirty c).mpr hm] at hcf
        exact Bool.true_eq_false.mp hcf
      have h1 : (s.cells p).prev_dirty ≠ some c :=
        fun h => hcl (List.mem_append.mpr (Or.inl (hprev_tgt_mem c h)))
      have h2 : (s.cells p).next_dirty ≠ some c :=
        fun h => hcl (List.mem_append.mpr
          (Or.inr (List.mem_cons_of_mem p (hnext_tgt_mem c h))))
      rw [hcother c hcp' h1 h2]
      exact hlinks c hcf
  · intro c
    by_cases hcp' : c = p
    · subst hcp'
      rw [hcp.2.2]
      constructor
      · intro h
        exact absurd h (by simp)
      · intro h
        rcases List.mem_append.mp h with h | h
        · exact absurd h hpl1
        · exact absurd h hp_l2
    · rw [hdirty_pres c hcp', hdirty c]
      simp [List.mem_append, List.mem_cons, hcp']


theorem dlistRep_of_eq (s s' : GCState) (l : List Nat)
    (hroot : s'.dirty_root = s.dirty_root)
    (huniv : ∀ c, c ∈ s.univ → c ∈ s'.univ)
    (hfields : ∀ c, (s'.cells c).prev_dirty = (s.cells c).prev_dirty ∧
        (s'.cells c).next_dirty = (s.cells c).next_dirty ∧
        (s'.cells c).is_dirty = (s.cells c).is_dirty)
    (hrep : DListRep s l) : DListRep s' l := by
  obtain ⟨hchain, hnd, hsub, hlinks, hdirty⟩ := hrep
  refine ⟨?_, hnd, ?_, ?_, ?_⟩
  · rw [hroot]
    exact chain_congr s.cells s'.cells l none s.dirty_root
      (fun c _ => ⟨(hfields c).1, (hfields c).2.1⟩) hchain
  · exact fun c hc => huniv c (hsub c hc)
  · intro c hcf
    rw [(hfields c).2.2] at hcf
    obtain ⟨e1, e2⟩ := hlinks c hcf
    exact ⟨(hfields c).1.trans e1, (hfields c).2.1.trans e2⟩
  · intro c
    rw [(hfields c).2.2]
    exact hdirty c

/-- The ghost-state invariant for C7: the dirty list is well formed, and a
cell is flagged dirty exactly when the ghost bit `g` records a `ref_count`
decrement since the last collection and the count is still positive; all
traced edges point into the allocated set. -/
def Inv (s : GCState) (g : Nat → Bool) : Prop :=
  (∃ l, DListRep s l) ∧
  (∀ c, (s.cells c).is_dirty = true ↔ (g c = true ∧ 0 < (s.cells c).ref_count)) ∧
  (∀ c e, e ∈ (s.cells c).edges → e ∈ s.univ)

/-- `dropHandle` paired with its ghost bookkeeping: a non-dead drop records
that `p`'s count decreased since the last collection. -/
def dropG (sg : GCState × (Nat → Bool)) (p : Nat) : GCState × (Nat → Bool) :=
  (dropHandle sg.1 p,
   fun q => if (sg.1.cells p).trace.dead = true then sg.2 q
            else if q = p then true else sg.2 q)

theorem dropHandle_inv (s : GCState) (g : Nat → Bool) (p : Nat)
    (hinv : Inv s g) (hpu : p ∈ s.univ) :
    Inv (dropHandle s p)
      (fun q => if (s.cells p).trace.dead = true then g q
                else if q = p then true else g q) := by
  obtain ⟨⟨l, hrep⟩, hiff, hedges⟩ := hinv
  have hnd : l.Nodup := hrep.2.1
  by_cases hdead : (s.cells p).trace.dead = true
  · rw [dropHandle_dead_eq s p hdead]
    refine ⟨⟨l, hrep⟩, ?_, hedges⟩
    intro c
    dsimp only
    rw [if_pos hdead]
    exact hiff c
  · set s1 := updateCell s p
      (fun c => { c with ref_count := (s.cells p).ref_count - 1 }) with hs1
    have hs1fields : ∀ c, (s1.cells c).prev_dirty = (s.cells c).prev_dirty ∧
        (s1.cells c).next_dirty = (s.cells c).next_dirty ∧
        (s1.cells c).is_dirty = (s.cells c).is_dirty := by
      intro c
      rw [hs1, updateCell_cells]
      split_ifs <;> exact ⟨rfl, rfl, rfl⟩
    have hs1value : ∀ c, (s1.cells c).value = (s.cells c).value := by
      intro c
      rw [hs1, updateCell_cells]
      split_ifs <;> rfl
    have hs1rc_p : (s1.cells p).ref_count = (s.cells p).ref_count - 1 := by
      rw [hs1, updateCell_cells, if_pos rfl]
    have hs1rc_o : ∀ c, c ≠ p →
        (s1.cells c).ref_count = (s.cells c).ref_count := by
      intro c hc
      rw [hs1, updateCell_cells, if_neg hc]
    have hs1univ : s1.univ = s.univ := by rw [hs1]; rfl
    have hs1root : s1.dirty_root = s.dirty_root := by rw [hs1]; rfl
    have hrep1 : DListRep s1 l :=
      dlistRep_of_eq s s1 l hs1root (fun c h => hs1univ ▸ h) hs1fields hrep
    by_cases hz : (s.cells p).ref_count - 1 = 0
    · by_cases hdirty : (s.cells p).is_dirty = true
      · -- ref_count hit zero on a listed cell: unlink it
        have hres : dropHandle s p = unmark_dirty s1 p := by
          unfold dropHandle
          dsimp only
          rw [if_neg hdead, if_pos hz, if_pos hdirty, hs1]
        have hd1 : (s1.cells p).is_dirty = true := (hs1fields p).2.2.trans hdirty
        have hrep2 : DListRep (unmark_dirty s1 p) (l.erase p) :=
          unmark_dirty_rep s1 p l hrep1 hd1
        have hdirty2 := hrep2.2.2.2.2
        rw [hres]
        refine ⟨⟨l.erase p, hrep2⟩, ?_, ?_⟩
        · intro c
          dsimp only
          rw [if_neg hdead]
          rcases eq_or_ne c p with rfl | hcp
          · rw [if_pos rfl]
            constructor
            · intro h
              have hm := (hdirty2 c).mp h
              exact absurd ((List.Nodup.mem_erase_iff hnd).mp hm).1 (by simp)
            · rintro ⟨_, hpos⟩
              rw [(unmark_dirty_cells_eq s1 c c).2.1, hs1rc_p, hz] at hpos
              exact absurd hpos (lt_irrefl 0)
          · rw [if_neg hcp]
            rw [(unmark_dirty_cells_eq s1 p c).2.1, hs1rc_o c hcp, hdirty2 c]
            have h1 : c ∈ l.erase p ↔ c ∈ l := by
              rw [List.Nodup.mem_erase_iff hnd]
              simp [hcp]
            rw [h1]
            exact (hrep.2.2.2.2 c).symm.trans (hiff c)
        · intro c e he
          have hedge_eq : ((unmark_dirty s1 p).cells c).edges = (s.cells c).edges := by
            unfold Cell.edges
            rw [(unmark_dirty_cells_eq s1 p c).1, hs1value c]
          rw [hedge_eq] at he
          have huniv_eq : (unmark_dirty s1 p).univ = s.univ :=
            (unmark_dirty_univ s1 p).1.trans hs1univ
          rw [huniv_eq]
          exact hedges c e he
      · -- count hit zero on an unlisted cell: only the count changes
        have hres : dropHandle s p = s1 := by
          unfold dropHandle
          dsimp only
          rw [if_neg hdead, if_pos hz, if_neg hdirty, hs1]
        rw [hres]
        refine ⟨⟨l, hrep1⟩, ?_, ?_⟩
        · intro c
          dsimp only
          rw [if_neg hdead]
          rcases eq_or_ne c p with rfl | hcp
          · rw [if_pos rfl, (hs1fields c).2.2]
            constructor
            · intro h
              exact absurd h hdirty
            · rintro ⟨_, hpos⟩
              rw [hs1rc_p, hz] at hpos
              exact absurd hpos (lt_irrefl 0)
          · rw [if_neg hcp, (hs1fields c).2.2, hs1rc_o c hcp]
            exact hiff c
        · intro c e he
          have hedge_eq : (s1.cells c).edges = (s.cells c).edges := by
            unfold Cell.edges
            rw [hs1value c]
          rw [hedge_eq] at he
          rw [hs1univ]
          exact hedges c e he
    · by_cases hdirty : (s.cells p).is_dirty = true
      · -- still positive and already listed: stays listed
        have hres : dropHandle s p = s1 := by
          unfold dropHandle
          dsimp only
          rw [if_neg hdead, if_neg hz, if_pos hdirty, hs1]
        rw [hres]
        refine ⟨⟨l, hrep1⟩, ?_, ?_⟩
        · intro c
          dsimp only
          rw [if_neg hdead]
          rcases eq_or_ne c p with rfl | hcp
          · rw [if_pos rfl, (hs1fields c).2.2, hs1rc_p]
            constructor
            · intro _
              exact ⟨rfl, Nat.pos_of_ne_zero hz⟩
            · intro _
              exact hdirty
          · rw [if_neg hcp, (hs1fields c).2.2, hs1rc_o c hcp]
            exact hiff c
        · intro c e he
          have hedge_eq : (s1.cells c).edges = (s.cells c).edges := by
            unfold Cell.edges
            rw [hs1value c]
          rw [hedge_eq] at he
          rw [hs1univ]
          exact hedges c e he
      · -- first decrement that leaves the count positive: link it in
        have hres : dropHandle s p = mark_dirty s1 p := by
          unfold dropHandle
          dsimp only
          rw [if_neg hdead, if_neg hz, if_neg hdirty, hs1]
        have hd1 : (s1.cells p).is_dirty = false :=
          (hs1fields p).2.2.trans (Bool.eq_false_iff.mpr hdirty)
        have hrep2 : DListRep (mark_dirty s1 p) (p :: l) :=
          mark_dirty_rep s1 p l hrep1 hd1 (hs1univ ▸ hpu)
        have hdirty2 := hrep2.2.2.2.2
        rw [hres]
        refine ⟨⟨p :: l, hrep2⟩, ?_, ?_⟩
        · intro c
          dsimp only
          rw [if_neg hdead]
          rcases eq_or_ne c p with rfl | hcp
          · rw [if_pos rfl]
            constructor
            · intro _
              refine ⟨rfl, ?_⟩
              rw [(mark_dirty_cells_eq s1 c c).2.1, hs1rc_p]
              exact Nat.pos_of_ne_zero hz
            · intro _
              exact (hdirty2 c).mpr (List.mem_cons_self c l)
          · rw [if_neg hcp]
            rw [(mark_dirty_cells_eq s1 p c).2.1, hs1rc_o c hcp, hdirty2 c]
            have h1 : c ∈ p :: l ↔ c ∈ l := by
              simp [List.mem_cons, hcp]
            rw [h1]
            exact (hrep.2.2.2.2 c).symm.trans (hiff c)
        · intro c e he
          have hedge_eq : ((mark_dirty s1 p).cells c).edges = (s.cells c).edges := by
            unfold Cell.edges
            rw [(mark_dirty_cells_eq s1 p c).1, hs1value c]
          rw [hedge_eq] at he
          have huniv_eq : (mark_dirty s1 p).univ = s.univ :=
            (mark_dirty_univ s1 p).1.trans hs1univ
          rw [huniv_eq]
          exact hedges c e he


theorem foldl_dropG_fst (l : List Nat) :
    ∀ sg : GCState × (Nat → Bool),
      (l.foldl dropG sg).1 = l.foldl dropHandle sg.1 := by
  induction l with
  | nil => exact fun _ => rfl
  | cons e l ih =>
    intro sg
    rw [List.foldl_cons, List.foldl_cons, ih (dropG sg e)]
    rfl

theorem foldl_dropG_inv (l : List Nat) :
    ∀ sg : GCState × (Nat → Bool), Inv sg.1 sg.2 →
      (∀ e, e ∈ l → e ∈ sg.1.univ) →
      Inv (l.foldl dropG sg).1 (l.foldl dropG sg).2 := by
  induction l with
  | nil => exact fun _ h _ => h
  | cons e l ih =>
    intro sg hinv hmem
    rw [List.foldl_cons]
    refine ih (dropG sg e)
      (dropHandle_inv sg.1 sg.2 e hinv (hmem e (List.mem_cons_self e l))) ?_
    intro e' he'
    have : (dropG sg e).1.univ = sg.1.univ := (dropHandle_univ sg.1 e).1
    rw [this]
    exact hmem e' (List.mem_cons_of_mem e he')

/-- Overwriting a cell's stored value (the shared core of `set`, value
clearing and allocation), with the edges of the new value staying allocated,
preserves the invariant: the dirty list and the counts are untouched. -/
theorem setRaw_inv (s : GCState) (g : Nat → Bool) (p : Nat) (w : Option Val)
    (hinv : Inv s g) (hw : ∀ e, e ∈ (Option.getD w []) → e ∈ s.univ) :
    Inv (updateCell s p (fun c => { c with value := w })) g := by
  obtain ⟨⟨l, hrep⟩, hiff, hedges⟩ := hinv
  refine ⟨⟨l, dlistRep_of_eq s _ l rfl (fun c h => h) ?_ hrep⟩, ?_, ?_⟩
  · intro c
    rw [updateCell_cells]
    split_ifs <;> exact ⟨rfl, rfl, rfl⟩
  · intro c
    rw [updateCell_cells]
    split_ifs <;> exact hiff c
  · intro c e he
    rw [updateCell_cells] at he
    show e ∈ s.univ
    by_cases hc : c = p
    · rw [if_pos hc] at he
      exact hw e he
    · rw [if_neg hc] at he
      exact hedges c e he

theorem newPtr_inv (s : GCState) (g : Nat → Bool) (p : Nat) (v : Val)
    (hinv : Inv s g) (hp : p ∉ s.univ) (hv : ∀ e, e ∈ v → e ∈ s.univ) :
    Inv (newCell s p v) (fun q => if q = p then false else g q) := by
  obtain ⟨⟨l, hrep⟩, hiff, hedges⟩ := hinv
  have hpl : p ∉ l := fun h => hp (hrep.2.2.1 p h)
  have hpdirty : (s.cells p).is_dirty = false := by
    cases h : (s.cells p).is_dirty
    · rfl
    · exact absurd ((hrep.2.2.2.2 p).mp h) hpl
  have hplinks := hrep.2.2.2.1 p hpdirty
  have hcells : ∀ c, (newCell s p v).cells c =
      if c = p then
        { value := some v, ref_count := 1,
          trace := { id := 0, ref_count := 0, dead := false },
          is_dirty := false, prev_dirty := none, next_dirty := none }
      else s.cells c := fun _ => rfl
  refine ⟨⟨l, ?_⟩, ?_, ?_⟩
  · refine dlistRep_of_eq s (newCell s p v) l rfl
      (fun c h => List.mem_cons_of_mem p h) ?_ hrep
    intro c
    rw [hcells c]
    split_ifs with h
    · subst h
      exact ⟨hplinks.1.symm, hplinks.2.symm, hpdirty.symm⟩
    · exact ⟨rfl, rfl, rfl⟩
  · intro c
    dsimp only
    rw [hcells c]
    rcases eq_or_ne c p with rfl | hcp
    · rw [if_pos rfl, if_pos rfl]
      simp
    · rw [if_neg hcp, if_neg hcp]
      exact hiff c
  · intro c e he
    rw [hcells c] at he
    show e ∈ p :: s.univ
    by_cases hc : c = p
    · rw [if_pos hc] at he
      exact List.mem_cons_of_mem p (hv e he)
    · rw [if_neg hc] at he
      exact List.mem_cons_of_mem p (hedges c e he)

theorem clone_inv (s : GCState) (g : Nat → Bool) (p : Nat)
    (hinv : Inv s g) (hp : 1 ≤ (s.cells p).ref_count) :
    Inv (cloneHandle s p) g := by
  obtain ⟨⟨l, hrep⟩, hiff, hedges⟩ := hinv
  have hcells : ∀ c, (cloneHandle s p).cells c =
      if c = p then { s.cells c with ref_count := (s.cells c).ref_count + 1 }
      else s.cells c := fun _ => rfl
  refine ⟨⟨l, ?_⟩, ?_, ?_⟩
  · refine dlistRep_of_eq s (cloneHandle s p) l rfl (fun c h => h) ?_ hrep
    intro c
    rw [hcells c]
    split_ifs <;> exact ⟨rfl, rfl, rfl⟩
  · intro c
    rw [hcells c]
    rcases eq_or_ne c p with rfl | hcp
    · rw [if_pos rfl]
      constructor
      · intro h
        exact ⟨((hiff c).mp h).1, Nat.succ_pos _⟩
      · rintro ⟨hg, _⟩
        exact (hiff c).mpr ⟨hg, lt_of_lt_of_le Nat.zero_lt_one hp⟩
    · rw [if_neg hcp]
      exact hiff c
  · intro c e he
    rw [hcells c] at he
    show e ∈ s.univ
    by_cases hc : c = p
    · rw [if_pos hc] at he
      exact hedges c e he
    · rw [if_neg hc] at he
      exact hedges c e he

/-- `drop_value` paired with its ghost bookkeeping. -/
def dropValueG (sg : GCState × (Nat → Bool)) (p : Nat) : GCState × (Nat → Bool) :=
  ((sg.1.cells p).edges).foldl dropG
    (updateCell sg.1 p (fun c => { c with value := none }), sg.2)

theorem dropValueG_fst (sg : GCState × (Nat → Bool)) (p : Nat) :
    (dropValueG sg p).1 = drop_value sg.1 p := by
  unfold dropValueG drop_value
  dsimp only
  exact foldl_dropG_fst _ _

theorem dropValueG_inv (sg : GCState × (Nat → Bool)) (p : Nat)
    (hinv : Inv sg.1 sg.2) : Inv (dropValueG sg p).1 (dropValueG sg p).2 := by
  unfold dropValueG
  refine foldl_dropG_inv _ _
    (setRaw_inv sg.1 sg.2 p none hinv
      (fun e he => absurd he (List.not_mem_nil e))) ?_
  intro e he
  exact hinv.2.2 p e he

theorem foldl_dropValueG_fst (l : List Nat) :
    ∀ sg : GCState × (Nat → Bool),
      (l.foldl dropValueG sg).1 = l.foldl drop_value sg.1 := by
  induction l with
  | nil => exact fun _ => rfl
  | cons e l ih =>
    intro sg
    rw [List.foldl_cons, List.foldl_cons, ih (dropValueG sg e), dropValueG_fst]

theorem foldl_dropValueG_inv (l : List Nat) :
    ∀ sg : GCState × (Nat → Bool), Inv sg.1 sg.2 →
      Inv (l.foldl dropValueG sg).1 (l.foldl dropValueG sg).2 := by
  induction l with
  | nil => exact fun _ h => h
  | cons e l ih =>
    intro sg hinv
    rw [List.foldl_cons]
    exact ih (dropValueG sg e) (dropValueG_inv sg e hinv)


/-- After phase 1 every cell's dirty flag and links are cleared: listed cells
were reset by the drain, unlisted ones were already clear, and the tally scan
touches only trace metadata. -/
theorem count_cyclic_dirty_links (s : GCState) (l : List Nat)
    (hrep : DListRep s l) (c : Nat) :
    ((count_cyclic_references s).2.cells c).is_dirty = false ∧
    ((count_cyclic_references s).2.cells c).prev_dirty = none ∧
    ((count_cyclic_references s).2.cells c).next_dirty = none := by
  have hroots := dlistRep_drain s l hrep
  unfold count_cyclic_references
  dsimp only
  obtain ⟨_, _, h3, h4, h5⟩ := tallyLoop_nonTraceEq (2 * s.univ.length + _ + 1)
    (drainResets (s.trace_id + 1) s.cells _,
     { queue := _, perform_count := true, trace_id := s.trace_id + 1 }) [] c
  rw [h3, h4, h5, hroots]
  dsimp only
  by_cases hc : c ∈ l
  · rw [drainResets_mem (s.trace_id + 1) l s.cells c hc hrep.2.1]
    exact ⟨rfl, rfl, rfl⟩
  · rw [drainResets_not_mem (s.trace_id + 1) l s.cells c hc]
    have hdf : (s.cells c).is_dirty = false := by
      cases h : (s.cells c).is_dirty
      · rfl
      · exact absurd ((hrep.2.2.2.2 c).mp h) hc
    obtain ⟨e1, e2⟩ := hrep.2.2.2.1 c hdf
    exact ⟨hdf, e1, e2⟩

/-- The manager state right after the two trace phases of `gc`, before any
value is cleared. -/
def gcMid (s : GCState) : GCState :=
  (find_unreachable_pointers (count_cyclic_references s).2
    (count_cyclic_references s).1).2

theorem gc_eq_mid (s : GCState) :
    gc s = (deadSet s).reverse.foldl drop_value (gcMid s) := rfl

/-- After the two phases the dirty list is empty and the invariant holds with
the ghost reset: no cell has decreased since this collection yet. -/
theorem gcMid_inv (s : GCState) (g : Nat → Bool) (hinv : Inv s g) :
    Inv (gcMid s) (fun _ => false) := by
  obtain ⟨⟨l, hrep⟩, hiff, hedges⟩ := hinv
  have hnte := find_unreachable_nonTraceEq (count_cyclic_references s).2
    (count_cyclic_references s).1
  have hfields : ∀ c, ((gcMid s).cells c).is_dirty = false ∧
      ((gcMid s).cells c).prev_dirty = none ∧
      ((gcMid s).cells c).next_dirty = none := by
    intro c
    obtain ⟨_, _, f3, f4, f5⟩ := hnte c
    unfold gcMid
    rw [f3, f4, f5]
    exact count_cyclic_dirty_links s l hrep c
  have huniv : (gcMid s).univ = s.univ := by
    unfold gcMid
    rw [(find_unreachable_mgr_fields (count_cyclic_references s).2
      (count_cyclic_references s).1).2.1]
    exact (count_cyclic_mgr_fields s).2.1
  have hroot : (gcMid s).dirty_root = none := by
    unfold gcMid
    rw [(find_unreachable_mgr_fields (count_cyclic_references s).2
      (count_cyclic_references s).1).2.2]
    exact (count_cyclic_mgr_fields s).2.2
  have hedge_eq : ∀ c, ((gcMid s).cells c).edges = (s.cells c).edges := by
    intro c
    unfold gcMid
    rw [nonTraceEq_edges hnte c]
    exact count_cyclic_edges_eq s c
  refine ⟨⟨[], ?_, List.nodup_nil, ?_, ?_, ?_⟩, ?_, ?_⟩
  · exact hroot
  · exact fun c h => absurd h (List.not_mem_nil c)
  · intro c _
    exact ⟨(hfields c).2.1, (hfields c).2.2⟩
  · intro c
    rw [(hfields c).1]
    simp
  · intro c
    rw [(hfields c).1]
    simp
  · intro c e he
    rw [hedge_eq c] at he
    rw [huniv]
    exact hedges c e he


/-! ## The client-visible operations and reachable states (for C7) -/

/-- The operations a client can perform between collections: allocate a new
pointer, clone a handle, drop a handle, overwrite a value, or run `gc()`. -/
inductive Op where
  | newPtr (p : Nat) (v : Val)
  | cloneOp (p : Nat)
  | dropOp (p : Nat)
  | setOp (p : Nat) (v : Val)
  | gcOp

/-- The program-state effect of each operation, exactly the source
operations. -/
def applyOp (s : GCState) : Op → GCState
  | .newPtr p v => newCell s p v
  | .cloneOp p => cloneHandle s p
  | .dropOp p => dropHandle s p
  | .setOp p v => setValue s p v
  | .gcOp => gc s

/-- Side conditions under which an operation can be issued by a real client:
a fresh allocation uses an unused id and stores handles to allocated cells,
clone and drop act through an existing handle, and a stored value holds
handles to allocated cells. -/
def ValidOp (s : GCState) : Op → Prop
  | .newPtr p v => p ∉ s.univ ∧ ∀ e, e ∈ v → e ∈ s.univ
  | .cloneOp p => 1 ≤ (s.cells p).ref_count
  | .dropOp p => p ∈ s.univ
  | .setOp p v => ∀ e, e ∈ v → e ∈ s.univ
  | .gcOp => True

/-- Each operation together with the ghost "ref_count decreased since the
last collection" bit: drops set it, `gc` resets it (the drops performed while
clearing the dead values re-set it for their targets). -/
def stepG (sg : GCState × (Nat → Bool)) : Op → GCState × (Nat → Bool)
  | .newPtr p v => (newCell sg.1 p v, fun q => if q = p then false else sg.2 q)
  | .cloneOp p => (cloneHandle sg.1 p, sg.2)
  | .dropOp p => dropG sg p
  | .setOp p v => ((sg.1.cells p).edges).foldl dropG
      (updateCell sg.1 p (fun c => { c with value := some v }), sg.2)
  | .gcOp => (deadSet sg.1).reverse.foldl dropValueG (gcMid sg.1, fun _ => false)

/-- The ghost step tracks the program exactly: its state component is the
source operation's effect. -/
theorem stepG_fst (sg : GCState × (Nat → Bool)) (op : Op) :
    (stepG sg op).1 = applyOp sg.1 op := by
  cases op with
  | newPtr p v => rfl
  | cloneOp p => rfl
  | dropOp p => rfl
  | setOp p v =>
    show (((sg.1.cells p).edges).foldl dropG
      (updateCell sg.1 p (fun c => { c with value := some v }), sg.2)).1
        = setValue sg.1 p v
    unfold setValue
    dsimp only
    exact foldl_dropG_fst _ _
  | gcOp =>
    show ((deadSet sg.1).reverse.foldl dropValueG (gcMid sg.1, fun _ => false)).1
      = gc sg.1
    rw [gc_eq_mid]
    exact foldl_dropValueG_fst _ _

theorem stepG_inv (sg : GCState × (Nat → Bool)) (op : Op)
    (hinv : Inv sg.1 sg.2) (hv : ValidOp sg.1 op) :
    Inv (stepG sg op).1 (stepG sg op).2 := by
  cases op with
  | newPtr p v => exact newPtr_inv sg.1 sg.2 p v hinv hv.1 hv.2
  | cloneOp p => exact clone_inv sg.1 sg.2 p hinv hv
  | dropOp p => exact dropHandle_inv sg.1 sg.2 p hinv hv
  | setOp p v =>
    refine foldl_dropG_inv _ _ (setRaw_inv sg.1 sg.2 p (some v) hinv hv) ?_
    intro e he
    exact hinv.2.2 p e he
  | gcOp => exact foldl_dropValueG_inv _ _ (gcMid_inv sg.1 sg.2 hinv)

/-- The blank manager a fresh `GCManager::new()` starts from, with the ghost
bits cleared. -/
def initSG : GCState × (Nat → Bool) :=
  ({ cells := fun _ => blankCell, univ := [], dirty_root := none,
     trace_id := 0 }, fun _ => false)

/-- The states reachable from a fresh manager by valid client operations. -/
inductive ReachableG : GCState × (Nat → Bool) → Prop where
  | init : ReachableG initSG
  | step (sg : GCState × (Nat → Bool)) (op : Op) (h : ReachableG sg)
      (hv : ValidOp sg.1 op) : ReachableG (stepG sg op)

theorem init_inv : Inv initSG.1 initSG.2 := by
  refine ⟨⟨[], rfl, List.nodup_nil, ?_, ?_, ?_⟩, ?_, ?_⟩
  · exact fun c h => absurd h (List.not_mem_nil c)
  · intro c _
    exact ⟨rfl, rfl⟩
  · intro c
    constructor
    · intro h
      exact absurd h (by simp [initSG, blankCell])
    · intro h
      exact absurd h (List.not_mem_nil c)
  · intro c
    constructor
    · intro h
      exact absurd h (by simp [initSG, blankCell])
    · rintro ⟨h, _⟩
      exact absurd h (by simp [initSG])
  · intro c e he
    exact absurd he (by simp [initSG, blankCell, Cell.edges])

theorem reachable_inv (sg : GCState × (Nat → Bool)) (h : ReachableG sg) :
    Inv sg.1 sg.2 := by
  induction h with
  | init => exact init_inv
  | step sg op h hv ih => exact stepG_inv sg op ih hv

/-- The manager's dirty list, read by walking `next_dirty` from
`dirty_root` (with enough fuel for every allocated cell). -/
def dirtyList (s : GCState) : List Nat :=
  dirtyListFrom s.cells (s.univ.length + 1) s.dirty_root


/-- C7: at all times outside of a `gc()` call — i.e. in every state reachable
from a fresh manager by valid client operations (allocation, handle clone,
handle drop, value overwrite, whole `gc()` calls), with the ghost bit `g c`
recording whether cell `c`'s `ref_count` was decremented since the last
collection — for every cell `c`: `is_dirty` holds iff `c` is linked in the
manager's dirty list, iff `c`'s `ref_count` has decreased at least once since
the last collection while remaining positive; in particular `ref_count = 0`
implies `c` is not in the dirty list. -/
theorem c7_dirty_iff_listed_iff_decreased (s : GCState) (g : Nat → Bool)
    (h : ReachableG (s, g)) (c : Nat) :
    ((s.cells c).is_dirty = true ↔ c ∈ dirtyList s) ∧
    ((s.cells c).is_dirty = true ↔
      (g c = true ∧ 0 < (s.cells c).ref_count)) ∧
    ((s.cells c).ref_count = 0 → c ∉ dirtyList s) := by
  have hinv := reachable_inv (s, g) h
  obtain ⟨⟨l, hrep⟩, hiff, _⟩ := hinv
  have hdl : dirtyList s = l := dlistRep_drain s l hrep
  refine ⟨?_, hiff c, ?_⟩
  · rw [hdl]
    exact hrep.2.2.2.2 c
  · intro hrc hmem
    rw [hdl] at hmem
    have hc := (hiff c).mp ((hrep.2.2.2.2 c).mpr hmem)
    rw [hrc] at hc
    exact absurd hc.2 (lt_irrefl 0)

theorem c7_dirty_iff_listed_iff_decreased_witness :
    (((stepG initSG (Op.newPtr 0 [])).1.cells 0).is_dirty = true ↔
        0 ∈ dirtyList (stepG initSG (Op.newPtr 0 [])).1) ∧
    (((stepG initSG (Op.newPtr 0 [])).1.cells 0).is_dirty = true ↔
        ((stepG initSG (Op.newPtr 0 [])).2 0 = true ∧
         0 < ((stepG initSG (Op.newPtr 0 [])).1.cells 0).ref_count)) ∧
    (((stepG initSG (Op.newPtr 0 [])).1.cells 0).ref_count = 0 →
        0 ∉ dirtyList (stepG initSG (Op.newPtr 0 [])).1) :=
  c7_dirty_iff_listed_iff_decreased (stepG initSG (Op.newPtr 0 [])).1
    (stepG initSG (Op.newPtr 0 [])).2
    (ReachableG.step initSG (Op.newPtr 0 []) ReachableG.init
      ⟨List.not_mem_nil 0, fun e he => absurd he (List.not_mem_nil e)⟩) 0

end CloneGC
